import Mathlib

/-! Markdown to Telegram HTML converter (`main/telegram/md_to_html.c`).

A shallow embedding of `md_to_telegram_html` and of its helpers `emit` and
`emit_char_escaped`, followed by the properties of the converter.

Modelling conventions.

* A byte is a natural number; the character constants of the source appear as
  their ASCII codes (`'<'` is 60, `'>'` is 62, `'&'` is 38, the backtick is 96,
  `'\n'` is 10, `'['` is 91, `']'` is 93, `'('` is 40, `')'` is 41, `'~'` is
  126, `'*'` is 42, `'_'` is 95).
* The input `md` is the list of the bytes that precede its terminating NUL, so
  `strlen(md)` is the length of the list.
* A `const char *` that walks through the input (`p`, `q`, `c`) is the list of
  the bytes from the pointer up to `end`; `p[k]` is `p.getD k 0` (the byte read
  at `end` is the terminating NUL) and `end - p` is `p.length`.
* The output buffer is the function giving the byte stored at every offset from
  `html`; offsets at or beyond `size` are memory that does not belong to the
  buffer.
* `size_t` values are natural numbers. The only arithmetic on them is the
  running sum `out` and the test `pos + n < cap` of `emit`; the model does not
  wrap around, which is exact as long as the logical length of the output
  stays within the range of `size_t`.
* The `while (p < end)` loop is run with fuel; the result is `none` when the
  fuel is exhausted before the loop exits.
-/

namespace MdToHtml

/-! ## The output buffer -/

/-- The caller's output buffer: the byte stored at each offset from `html`. -/
abbrev Buffer := Nat → Nat

/-- The call `memcpy(buf + pos, s, n)`: bytes `s[0..n)` are stored at offsets
`pos .. pos + n - 1`. -/
def memcpy (buf : Buffer) (pos : Nat) (s : List Nat) (n : Nat) : Buffer :=
  fun i => if pos ≤ i ∧ i < pos + n then s.getD (i - pos) 0 else buf i

/-- The assignment `buf[i] = v`. -/
def store (buf : Buffer) (i v : Nat) : Buffer :=
  fun k => if k = i then v else buf k

/-- The function `emit`: copies `n` bytes of `s` to `buf + pos` when
`pos + n < cap`, and returns `n` in every case. The result is the buffer after
the call together with the returned value. -/
def emit (buf : Buffer) (pos cap : Nat) (s : List Nat) (n : Nat) : Buffer × Nat :=
  (if pos + n < cap then memcpy buf pos s n else buf, n)

/-- The function `emit_char_escaped`: a switch on the character. -/
def emit_char_escaped (buf : Buffer) (pos cap : Nat) (c : Nat) : Buffer × Nat :=
  if c = 60 then emit buf pos cap [38, 108, 116, 59] 4
  else if c = 62 then emit buf pos cap [38, 103, 116, 59] 4
  else if c = 38 then emit buf pos cap [38, 97, 109, 112, 59] 5
  else emit buf pos cap [c] 1

/-! ## The string literals of the source -/

/-- The literal `"<pre>"`. -/
def PRE_OPEN : List Nat := [60, 112, 114, 101, 62]
/-- The literal `"</pre>"`. -/
def PRE_CLOSE : List Nat := [60, 47, 112, 114, 101, 62]
/-- The literal `"<code>"`. -/
def CODE_OPEN : List Nat := [60, 99, 111, 100, 101, 62]
/-- The literal `"</code>"`. -/
def CODE_CLOSE : List Nat := [60, 47, 99, 111, 100, 101, 62]
/-- The literal `"<a href=\""`. -/
def A_OPEN : List Nat := [60, 97, 32, 104, 114, 101, 102, 61, 34]
/-- The literal `"\">"`. -/
def A_OPEN_END : List Nat := [34, 62]
/-- The literal `"</a>"`. -/
def A_CLOSE : List Nat := [60, 47, 97, 62]
/-- The literal `"<s>"`. -/
def S_OPEN : List Nat := [60, 115, 62]
/-- The literal `"</s>"`. -/
def S_CLOSE : List Nat := [60, 47, 115, 62]
/-- The literal `"<b>"`. -/
def B_OPEN : List Nat := [60, 98, 62]
/-- The literal `"</b>"`. -/
def B_CLOSE : List Nat := [60, 47, 98, 62]
/-- The literal `"<i>"`. -/
def I_OPEN : List Nat := [60, 105, 62]
/-- The literal `"</i>"`. -/
def I_CLOSE : List Nat := [60, 47, 105, 62]

/-! ## The state of a conversion -/

/-- One invocation of an emission macro: `EMIT_STR(s)`, `EMIT_N(s, n)` or
`EMIT_ESC(c)`. -/
inductive Emit where
  | str (s : List Nat)
  | raw (s : List Nat) (n : Nat)
  | esc (c : Nat)
  deriving DecidableEq, Repr

/-- The local variables of `md_to_telegram_html` and the content of the output
buffer. The field `log` is a ghost variable: the emission macros executed so
far, in order. It is never read by the converter. -/
structure State where
  html : Buffer
  out : Nat
  p : List Nat
  in_bold : Bool
  in_italic : Bool
  in_strike : Bool
  in_code_block : Bool
  log : List Emit

/-- The macro `EMIT_STR(s)`: `out += emit(html, out, size, s, strlen(s))`. -/
def EMIT_STR (size : Nat) (s : List Nat) (st : State) : State :=
  let r := emit st.html st.out size s s.length
  { st with html := r.1, out := st.out + r.2, log := st.log ++ [Emit.str s] }

/-- The macro `EMIT_N(s, n)`: `out += emit(html, out, size, s, n)`. -/
def EMIT_N (size : Nat) (s : List Nat) (n : Nat) (st : State) : State :=
  let r := emit st.html st.out size s n
  { st with html := r.1, out := st.out + r.2, log := st.log ++ [Emit.raw s n] }

/-- The macro `EMIT_ESC(c)`: `out += emit_char_escaped(html, out, size, c)`. -/
def EMIT_ESC (size : Nat) (c : Nat) (st : State) : State :=
  let r := emit_char_escaped st.html st.out size c
  { st with html := r.1, out := st.out + r.2, log := st.log ++ [Emit.esc c] }

/-- The loop `for (c = from; c < to; c++) EMIT_ESC(*c);` over the bytes
`span` lying between the two pointers. -/
def emit_span (size : Nat) (span : List Nat) (st : State) : State :=
  span.foldl (fun s c => EMIT_ESC size c s) st

/-! ## Searches in the input -/

/-- The call `memchr(s, c, n)`: the offset from `s` of the first byte equal to
`c` among the first `n` bytes, `none` for a null result. -/
def memchr : List Nat → Nat → Nat → Option Nat
  | [], _, _ => none
  | _ :: _, _, 0 => none
  | b :: s, c, n + 1 => if b = c then some 0 else (memchr s c n).map (· + 1)

/-- The loop `while (p < end && *p != '\n') p++;` that skips the language tag
of an opening fence. -/
def skip_line : List Nat → List Nat
  | [] => []
  | b :: s => if b ≠ 10 then skip_line s else b :: s

/-- The loop that looks for the closing bracket of a link,
`for (q = ...; q < end && *q != '\n'; q++) if (*q == ']') ...`, started at
the list `q`: the offset from the start of the first `']'` met before any
newline, `none` when `close_bracket` stays null. -/
def find_close_bracket : List Nat → Option Nat
  | [] => none
  | b :: s =>
    if b = 10 then none
    else if b = 93 then some 0
    else (find_close_bracket s).map (· + 1)

/-! ## One iteration of the scan loop -/

/-- The tail of the loop body, from the strikethrough test to the default
emission. -/
def step_markers (size : Nat) (st : State) : State :=
  let p := st.p
  if 1 < p.length ∧ p.getD 0 0 = 126 ∧ p.getD 1 0 = 126 then
    let st1 := if st.in_strike then EMIT_STR size S_CLOSE st else EMIT_STR size S_OPEN st
    { st1 with in_strike := !st.in_strike, p := p.drop 2 }
  else if 1 < p.length ∧ p.getD 0 0 = 42 ∧ p.getD 1 0 = 42 then
    let st1 := if st.in_bold then EMIT_STR size B_CLOSE st else EMIT_STR size B_OPEN st
    { st1 with in_bold := !st.in_bold, p := p.drop 2 }
  else if p.getD 0 0 = 42 ∧ ¬ (1 < p.length ∧ p.getD 1 0 = 42) then
    let st1 := if st.in_italic then EMIT_STR size I_CLOSE st else EMIT_STR size I_OPEN st
    { st1 with in_italic := !st.in_italic, p := p.drop 1 }
  else if 1 < p.length ∧ p.getD 0 0 = 95 ∧ p.getD 1 0 = 95 then
    let st1 := if st.in_bold then EMIT_STR size B_CLOSE st else EMIT_STR size B_OPEN st
    { st1 with in_bold := !st.in_bold, p := p.drop 2 }
  else
    { EMIT_ESC size (p.getD 0 0) st with p := p.drop 1 }

/-- The link test of the loop body; when the construct is not a link the
control falls through to the marker tests. In the body, `cb` is the offset of
`close_bracket` from `p` and `j` is `url_len`, the offset of `close_paren`
from `close_bracket + 2`. -/
def step_link (size : Nat) (st : State) : State :=
  let p := st.p
  if p.getD 0 0 = 91 then
    match (find_close_bracket (p.drop 1)).map (· + 1) with
    | some cb =>
      if cb + 1 < p.length ∧ p.getD (cb + 1) 0 = 40 then
        match memchr (p.drop (cb + 2)) 41 (p.length - cb - 2) with
        | some j =>
          let st1 := EMIT_STR size A_OPEN st
          let st2 := EMIT_N size (p.drop (cb + 2)) j st1
          let st3 := EMIT_STR size A_OPEN_END st2
          let st4 := emit_span size ((p.drop 1).take (cb - 1)) st3
          let st5 := EMIT_STR size A_CLOSE st4
          { st5 with p := p.drop (cb + 2 + j + 1) }
        | none => step_markers size st
      else step_markers size st
    | none => step_markers size st
  else step_markers size st

/-- The inline-code test of the loop body; when no closing backtick exists the
control falls through to the link test. In the body, `i` is the offset of `q`
from `p + 1`. -/
def step_inline_code (size : Nat) (st : State) : State :=
  let p := st.p
  if p.getD 0 0 = 96 then
    match memchr (p.drop 1) 96 (p.length - 1) with
    | some i =>
      let st1 := EMIT_STR size CODE_OPEN st
      let st2 := emit_span size ((p.drop 1).take i) st1
      let st3 := EMIT_STR size CODE_CLOSE st2
      { st3 with p := p.drop (1 + i + 1) }
    | none => step_link size st
  else step_link size st

/-- One iteration of the body of `while (p < end)`. -/
def step (size : Nat) (st : State) : State :=
  let p := st.p
  if ¬ st.in_code_block ∧ 3 ≤ p.length ∧ p.getD 0 0 = 96 ∧ p.getD 1 0 = 96 ∧ p.getD 2 0 = 96 then
    let p1 := p.drop 3
    let p2 := skip_line p1
    let p3 := if 0 < p2.length then p2.drop 1 else p2
    { EMIT_STR size PRE_OPEN st with in_code_block := true, p := p3 }
  else if st.in_code_block ∧ 3 ≤ p.length ∧ p.getD 0 0 = 96 ∧ p.getD 1 0 = 96 ∧ p.getD 2 0 = 96 then
    let p1 := p.drop 3
    let p2 := if 0 < p1.length ∧ p1.getD 0 0 = 10 then p1.drop 1 else p1
    { EMIT_STR size PRE_CLOSE st with in_code_block := false, p := p2 }
  else if st.in_code_block then
    { EMIT_ESC size (p.getD 0 0) st with p := p.drop 1 }
  else step_inline_code size st

/-- The loop `while (p < end) ...`, run for at most `fuel` iterations. -/
def scan (size : Nat) : Nat → State → Option State
  | 0, st => if 0 < st.p.length then none else some st
  | fuel + 1, st => if 0 < st.p.length then scan size fuel (step size st) else some st

/-- The four statements after the loop that close the tags still open. -/
def close_unclosed (size : Nat) (st : State) : State :=
  let st1 := if st.in_code_block then EMIT_STR size PRE_CLOSE st else st
  let st2 := if st1.in_strike then EMIT_STR size S_CLOSE st1 else st1
  let st3 := if st2.in_bold then EMIT_STR size B_CLOSE st2 else st2
  if st3.in_italic then EMIT_STR size I_CLOSE st3 else st3

/-- The final statement that writes the terminating NUL. -/
def nul_terminate (size : Nat) (st : State) : Buffer :=
  if st.out < size then store st.html st.out 0 else store st.html (size - 1) 0

/-- The state after the declarations that precede the loop. -/
def init (md : List Nat) (html : Buffer) : State :=
  { html := html, out := 0, p := md, in_bold := false, in_italic := false,
    in_strike := false, in_code_block := false, log := [] }

/-- The body of `md_to_telegram_html` from the declarations to the statements
that close the open tags, for non-null arguments and a non-zero size. Each
iteration of the loop consumes at least one byte, so `strlen(md)` iterations
are allowed. -/
def convert (md : List Nat) (html : Buffer) (size : Nat) : Option State :=
  (scan size md.length (init md html)).map (close_unclosed size)

/-- The function `md_to_telegram_html`. A null pointer argument is `none`.
The result is the output buffer after the call (`none` when `html` is null)
and the returned value; the whole result is `none` when the scan loop has not
finished within its fuel. -/
def md_to_telegram_html (md : Option (List Nat)) (html : Option Buffer) (size : Nat) :
    Option (Option Buffer × Nat) :=
  match md, html with
  | some m, some h =>
    if size = 0 then some (some h, 0)
    else (convert m h size).map (fun st => (some (nul_terminate size st), st.out))
  | _, _ => some (html, 0)

/-- The bytes of an ASCII string literal. -/
def bytes (s : String) : List Nat := s.toList.map Char.toNat

/-- The first `n` bytes of a buffer. -/
def contents (buf : Buffer) (n : Nat) : List Nat := (List.range n).map buf

/-! ## Vocabulary of the properties -/

/-- The entity, or the byte itself, by which the escaping rule replaces `c`. -/
def escape (c : Nat) : List Nat :=
  if c = 60 then [38, 108, 116, 59]
  else if c = 62 then [38, 103, 116, 59]
  else if c = 38 then [38, 97, 109, 112, 59]
  else [c]

/-- The text `esc(s)`: every byte of `s` through the escaping rule. -/
def esc (s : List Nat) : List Nat := s.flatMap escape

/-- The bytes that an emission hands to `emit`: the string of `EMIT_STR`, the
`n` bytes read from `s` for `EMIT_N(s, n)`, the escaped byte of `EMIT_ESC`. -/
def Emit.bytes : Emit → List Nat
  | .str s => s
  | .raw s n => (List.range n).map (fun k => s.getD k 0)
  | .esc c => escape c

/-- The concatenation of the bytes of a sequence of emissions. -/
def text_of (es : List Emit) : List Nat := es.flatMap Emit.bytes

/-- The effect of one emission on the buffer and on `out`: the call of `emit`
at offset `out` followed by `out += n`. -/
def push (size : Nat) (s : Buffer × Nat) (e : Emit) : Buffer × Nat :=
  ((emit s.1 s.2 size e.bytes e.bytes.length).1, s.2 + e.bytes.length)

/-- The effect of a sequence of emissions on the buffer and on `out`. -/
def replay (size : Nat) (es : List Emit) (s : Buffer × Nat) : Buffer × Nat :=
  es.foldl (push size) s

/-- The state in which the emissions `es` have been performed. -/
def State.emits (size : Nat) (es : List Emit) (st : State) : State :=
  { st with html := (replay size es (st.html, st.out)).1,
            out := (replay size es (st.html, st.out)).2,
            log := st.log ++ es }

/-- The part of the state that drives the scan: the cursor and the four
flags. -/
structure Ctl where
  p : List Nat
  in_bold : Bool
  in_italic : Bool
  in_strike : Bool
  in_code_block : Bool

/-- The state made of a buffer, a value of `out`, a control part and a log. -/
def State.make (sink : Buffer × Nat) (c : Ctl) (log : List Emit) : State :=
  ⟨sink.1, sink.2, c.p, c.in_bold, c.in_italic, c.in_strike, c.in_code_block, log⟩

/-- The control part at the start of the scan. -/
def Ctl.start (md : List Nat) : Ctl := ⟨md, false, false, false, false⟩

/-- The shapes of one iteration of the scan loop: `Rule c es d` holds when an
iteration started with control `c` may perform the emissions `es` and leave
the control `d`. The precedence between the rules is not recorded. -/
inductive Rule : Ctl → List Emit → Ctl → Prop
  | fence_open (t : List Nat) (b i s : Bool) :
      Rule ⟨96 :: 96 :: 96 :: t, b, i, s, false⟩ [Emit.str PRE_OPEN]
        ⟨(skip_line t).drop 1, b, i, s, true⟩
  | fence_close (t : List Nat) (b i s : Bool) :
      Rule ⟨96 :: 96 :: 96 :: t, b, i, s, true⟩ [Emit.str PRE_CLOSE]
        ⟨if 0 < t.length ∧ t.getD 0 0 = 10 then t.drop 1 else t, b, i, s, false⟩
  | verbatim (a : Nat) (t : List Nat) (b i s : Bool) :
      Rule ⟨a :: t, b, i, s, true⟩ [Emit.esc a] ⟨t, b, i, s, true⟩
  | inline_code (t : List Nat) (b i s : Bool) (q : Nat)
      (hq : memchr t 96 t.length = some q) :
      Rule ⟨96 :: t, b, i, s, false⟩
        ([Emit.str CODE_OPEN] ++ (t.take q).map Emit.esc ++ [Emit.str CODE_CLOSE])
        ⟨t.drop (q + 1), b, i, s, false⟩
  | link (t : List Nat) (b i s : Bool) (k j : Nat)
      (hk : find_close_bracket t = some k)
      (hparen : k + 1 < t.length ∧ t.getD (k + 1) 0 = 40)
      (hj : memchr (t.drop (k + 2)) 41 (t.length - (k + 2)) = some j) :
      Rule ⟨91 :: t, b, i, s, false⟩
        ([Emit.str A_OPEN, Emit.raw (t.drop (k + 2)) j, Emit.str A_OPEN_END] ++
          (t.take k).map Emit.esc ++ [Emit.str A_CLOSE])
        ⟨t.drop (k + 2 + j + 1), b, i, s, false⟩
  | strike (t : List Nat) (b i s : Bool) :
      Rule ⟨126 :: 126 :: t, b, i, s, false⟩
        [Emit.str (if s then S_CLOSE else S_OPEN)] ⟨t, b, i, !s, false⟩
  | bold_star (t : List Nat) (b i s : Bool) :
      Rule ⟨42 :: 42 :: t, b, i, s, false⟩
        [Emit.str (if b then B_CLOSE else B_OPEN)] ⟨t, !b, i, s, false⟩
  | italic (t : List Nat) (b i s : Bool) :
      Rule ⟨42 :: t, b, i, s, false⟩
        [Emit.str (if i then I_CLOSE else I_OPEN)] ⟨t, b, !i, s, false⟩
  | bold_underscore (t : List Nat) (b i s : Bool) :
      Rule ⟨95 :: 95 :: t, b, i, s, false⟩
        [Emit.str (if b then B_CLOSE else B_OPEN)] ⟨t, !b, i, s, false⟩
  | literal (a : Nat) (t : List Nat) (b i s : Bool) :
      Rule ⟨a :: t, b, i, s, false⟩ [Emit.esc a] ⟨t, b, i, s, false⟩

/-- A sequence of iterations: `Run c es d` holds when iterations that follow
the rules lead from control `c` to control `d` with the emissions `es`. -/
inductive Run : Ctl → List Emit → Ctl → Prop
  | done (c : Ctl) : Run c [] c
  | next {c d e : Ctl} {es fs : List Emit} : Rule c es d → Run d fs e → Run c (es ++ fs) e

/-- The emissions of the statements that close the tags still open. -/
def closers (c : Ctl) : List Emit :=
  (if c.in_code_block then [Emit.str PRE_CLOSE] else []) ++
  (if c.in_strike then [Emit.str S_CLOSE] else []) ++
  (if c.in_bold then [Emit.str B_CLOSE] else []) ++
  (if c.in_italic then [Emit.str I_CLOSE] else [])

/-- The sequence of emissions of a conversion of `md`: the log of a run of the
converter. The log depends neither on the buffer nor on its size. -/
def emissions (md : List Nat) : List Emit :=
  ((convert md (fun _ => 0) 0).map State.log).getD []

/-- The converted text: the bytes of all the emissions of a conversion, which
is what a buffer without bound receives. -/
def converted (md : List Nat) : List Nat := text_of (emissions md)

/-- The emissions that fit, from logical offset `pos` on: the emissions that
precede the first one for which the test `pos + n < cap` of `emit` fails. -/
def copied_from (size : Nat) : Nat → List Emit → List Emit
  | _, [] => []
  | pos, e :: es =>
    if pos + e.bytes.length < size then e :: copied_from size (pos + e.bytes.length) es
    else []

/-- The emissions of a conversion of `md` that precede the first one that does
not fit in a buffer of `size` bytes. -/
def copied (size : Nat) (md : List Nat) : List Emit :=
  copied_from size 0 (emissions md)

/-- The string held by a buffer of `size` bytes: the bytes that precede the
first NUL. -/
def c_string (buf : Buffer) (size : Nat) : List Nat :=
  (contents buf size).takeWhile (fun b => b ≠ 0)

/-- The conversion of `md` outputs the text `t`: for every buffer whose
capacity exceeds the length of `t`, the call returns that length, the buffer
starts with `t` and a NUL follows. -/
def Outputs (md t : List Nat) : Prop :=
  ∀ (html : Buffer) (size : Nat), t.length < size →
    ∃ buf, md_to_telegram_html (some md) (some html) size = some (some buf, t.length) ∧
      contents buf t.length = t ∧ buf t.length = 0

/-- The fixed tags of the output dialect, the opening tag of an anchor
excepted: `<b>`, `</b>`, `<i>`, `</i>`, `<s>`, `</s>`, `<code>`, `</code>`,
`<pre>`, `</pre>`, `</a>`. -/
def FIXED_TAGS : List (List Nat) :=
  [B_OPEN, B_CLOSE, I_OPEN, I_CLOSE, S_OPEN, S_CLOSE, CODE_OPEN, CODE_CLOSE,
   PRE_OPEN, PRE_CLOSE, A_CLOSE]

/-- The three entities `&lt;`, `&gt;` and `&amp;`. -/
def ENTITIES : List (List Nat) :=
  [[38, 108, 116, 59], [38, 103, 116, 59], [38, 97, 109, 112, 59]]

/-- A recognized piece of output: a fixed tag, an opening anchor tag
`<a href="u">` whose target `u` holds none of `'"'`, `'<'`, `'>'` and `'&'`,
an entity, or one byte other than `'<'`, `'>'` and `'&'`. -/
def Recognized (x : List Nat) : Prop :=
  x ∈ FIXED_TAGS ∨
    (∃ u, (∀ c ∈ u, c ≠ 34 ∧ c ≠ 60 ∧ c ≠ 62 ∧ c ≠ 38) ∧ x = A_OPEN ++ u ++ A_OPEN_END) ∨
    x ∈ ENTITIES ∨ (∃ c, x = [c] ∧ c ≠ 60 ∧ c ≠ 62 ∧ c ≠ 38)

/-- A text without bare `'<'`, `'>'` or `'&'`: a concatenation of recognized
pieces, so that each of these bytes lies in a tag or in an entity. -/
def Parsed (t : List Nat) : Prop :=
  ∃ pieces : List (List Nat), pieces.flatten = t ∧ ∀ x ∈ pieces, Recognized x

/-- The bytes of a link target, emitted by `EMIT_N`, hold none of `'"'`,
`'<'`, `'>'` and `'&'`; true of every other emission. -/
def target_is_clean : Emit → Bool
  | .raw s n => (Emit.raw s n).bytes.all (fun c => c != 34 && c != 60 && c != 62 && c != 38)
  | _ => true

/-- The shape of the emissions of a conversion: each emission is a fixed tag,
an entity emitted for `'<'`, `'>'` or `'&'`, a byte other than these three
emitted as it is, or belongs to an opening anchor tag, made of the literal
`<a href="`, the link target copied raw and the literal `">`. -/
inductive Shaped : List Emit → Prop
  | nil : Shaped []
  | tag (s : List Nat) (es : List Emit) (h : s ∈ FIXED_TAGS) :
      Shaped es → Shaped (Emit.str s :: es)
  | entity (c : Nat) (es : List Emit) (h : c = 60 ∨ c = 62 ∨ c = 38)
      (hb : (Emit.esc c).bytes ∈ ENTITIES) : Shaped es → Shaped (Emit.esc c :: es)
  | byte (c : Nat) (es : List Emit) (h : c ≠ 60 ∧ c ≠ 62 ∧ c ≠ 38)
      (hb : (Emit.esc c).bytes = [c]) : Shaped es → Shaped (Emit.esc c :: es)
  | anchor (s : List Nat) (n : Nat) (es : List Emit) :
      Shaped es → Shaped (Emit.str A_OPEN :: Emit.raw s n :: Emit.str A_OPEN_END :: es)

/-- The number of positions of the text at which `pat` occurs. -/
def occurrences (pat : List Nat) : List Nat → Nat
  | [] => 0
  | c :: t => (if pat.isPrefixOf (c :: t) then 1 else 0) + occurrences pat t

/-- A state transformer acts on the states of control `c` by fixed emissions
`es` and a fixed new control `d` allowed by the rules, whatever the buffer,
its size, the value of `out` and the log. -/
def Normal (f : Nat → State → State) (c : Ctl) : Prop :=
  ∃ es d, Rule c es d ∧
    ∀ size sink log,
      f size (State.make sink c log) = State.make (replay size es sink) d (log ++ es)

/-- The scan loop run from `st` with the fuel that its remaining input
allows. -/
def run_all (size : Nat) (st : State) : Option State := scan size st.p.length st

/-- The number of bytes that the calls of `emit` copy into a buffer of `size`
bytes during a conversion of `md`: the bytes of the copied emissions. The
terminating NUL is not counted. -/
def written (size : Nat) (md : List Nat) : Nat := (text_of (copied size md)).length

/-- The length of the closing tags that the statements after the loop emit
for the flags of `c`. -/
def closing_debt (c : Ctl) : Nat := (text_of (closers c)).length

/-! ## The emission macros as emissions -/

theorem memcpy_raw (buf : Buffer) (pos : Nat) (s : List Nat) (n : Nat) :
    memcpy buf pos ((List.range n).map (fun k => s.getD k 0)) n = memcpy buf pos s n := by
  funext i
  unfold memcpy
  split
  · rename_i h
    have : i - pos < n := by omega
    simp [List.getD, List.getElem?_map, List.getElem?_range, this]
  · rfl

theorem emit_char_escaped_eq (buf : Buffer) (pos cap c : Nat) :
    emit_char_escaped buf pos cap c = emit buf pos cap (escape c) (escape c).length := by
  unfold emit_char_escaped escape
  split_ifs <;> rfl

theorem EMIT_STR_eq (size : Nat) (s : List Nat) (st : State) :
    EMIT_STR size s st = st.emits size [Emit.str s] := by
  simp [EMIT_STR, State.emits, replay, push, emit, Emit.bytes]

theorem EMIT_ESC_eq (size : Nat) (c : Nat) (st : State) :
    EMIT_ESC size c st = st.emits size [Emit.esc c] := by
  simp [EMIT_ESC, State.emits, replay, push, emit_char_escaped_eq, emit, Emit.bytes]

theorem EMIT_N_eq (size : Nat) (s : List Nat) (n : Nat) (st : State) :
    EMIT_N size s n st = st.emits size [Emit.raw s n] := by
  unfold EMIT_N State.emits replay push emit Emit.bytes
  simp only [List.foldl_cons, List.foldl_nil, List.length_map, List.length_range, memcpy_raw]

theorem emits_emits (size : Nat) (es fs : List Emit) (st : State) :
    (st.emits size es).emits size fs = st.emits size (es ++ fs) := by
  simp [State.emits, replay, List.foldl_append]

theorem emit_span_eq (size : Nat) (span : List Nat) (st : State) :
    emit_span size span st = st.emits size (span.map Emit.esc) := by
  induction span generalizing st with
  | nil => simp [emit_span, State.emits, replay]
  | cons c t ih =>
    have : emit_span size (c :: t) st = emit_span size t (EMIT_ESC size c st) := rfl
    rw [this, ih, EMIT_ESC_eq, emits_emits]
    rfl

theorem replay_append (size : Nat) (es fs : List Emit) (s : Buffer × Nat) :
    replay size (es ++ fs) s = replay size fs (replay size es s) := by
  simp [replay, List.foldl_append]

/-! ## Every iteration follows a rule -/

theorem two_bytes {p : List Nat} {a b : Nat}
    (h : 1 < p.length ∧ p.getD 0 0 = a ∧ p.getD 1 0 = b) : ∃ t, p = a :: b :: t := by
  rcases p with _ | ⟨x, _ | ⟨y, t⟩⟩
  · simp at h
  · simp at h
  · obtain ⟨-, h0, h1⟩ := h
    simp at h0 h1
    exact ⟨t, by rw [h0, h1]⟩

theorem three_bytes {p : List Nat} {a : Nat}
    (h : 3 ≤ p.length ∧ p.getD 0 0 = a ∧ p.getD 1 0 = a ∧ p.getD 2 0 = a) :
    ∃ t, p = a :: a :: a :: t := by
  rcases p with _ | ⟨x, _ | ⟨y, _ | ⟨z, t⟩⟩⟩
  · simp at h
  · simp at h
  · simp at h
  · obtain ⟨-, h0, h1, h2⟩ := h
    simp at h0 h1 h2
    exact ⟨t, by rw [h0, h1, h2]⟩

theorem one_byte {p : List Nat} (h : 0 < p.length) : ∃ t, p = p.getD 0 0 :: t := by
  rcases p with _ | ⟨x, t⟩
  · simp at h
  · exact ⟨t, by simp⟩

theorem step_markers_normal (p : List Nat) (b i s : Bool) (hp : 0 < p.length) :
    Normal step_markers ⟨p, b, i, s, false⟩ := by
  unfold Normal
  by_cases h1 : 1 < p.length ∧ p.getD 0 0 = 126 ∧ p.getD 1 0 = 126
  · obtain ⟨t, rfl⟩ := two_bytes h1
    refine ⟨_, _, Rule.strike t b i s, fun size sink log => ?_⟩
    dsimp only [step_markers, State.make]
    rw [if_pos h1]
    cases s <;> simp only [EMIT_STR_eq] <;> rfl
  by_cases h2 : 1 < p.length ∧ p.getD 0 0 = 42 ∧ p.getD 1 0 = 42
  · obtain ⟨t, rfl⟩ := two_bytes h2
    refine ⟨_, _, Rule.bold_star t b i s, fun size sink log => ?_⟩
    dsimp only [step_markers, State.make]
    rw [if_neg h1, if_pos h2]
    cases b <;> simp only [EMIT_STR_eq] <;> rfl
  by_cases h3 : p.getD 0 0 = 42 ∧ ¬ (1 < p.length ∧ p.getD 1 0 = 42)
  · obtain ⟨t, ht⟩ := one_byte hp
    rw [h3.1] at ht
    subst ht
    refine ⟨_, _, Rule.italic t b i s, fun size sink log => ?_⟩
    dsimp only [step_markers, State.make]
    rw [if_neg h1, if_neg h2, if_pos h3]
    cases i <;> simp only [EMIT_STR_eq] <;> rfl
  by_cases h4 : 1 < p.length ∧ p.getD 0 0 = 95 ∧ p.getD 1 0 = 95
  · obtain ⟨t, rfl⟩ := two_bytes h4
    refine ⟨_, _, Rule.bold_underscore t b i s, fun size sink log => ?_⟩
    dsimp only [step_markers, State.make]
    rw [if_neg h1, if_neg h2, if_neg h3, if_pos h4]
    cases b <;> simp only [EMIT_STR_eq] <;> rfl
  · obtain ⟨t, ht⟩ := one_byte hp
    generalize p.getD 0 0 = a at ht
    subst ht
    refine ⟨_, _, Rule.literal a t b i s, fun size sink log => ?_⟩
    dsimp only [step_markers, State.make]
    rw [if_neg h1, if_neg h2, if_neg h3, if_neg h4, EMIT_ESC_eq]
    rfl

theorem normal_fall {f g : Nat → State → State} {c : Ctl} (hg : Normal g c)
    (h : ∀ size sink log, f size (State.make sink c log) = g size (State.make sink c log)) :
    Normal f c := by
  obtain ⟨es, d, hr, he⟩ := hg
  exact ⟨es, d, hr, fun size sink log => by rw [h, he]⟩

theorem step_link_normal (p : List Nat) (b i s : Bool) (hp : 0 < p.length) :
    Normal step_link ⟨p, b, i, s, false⟩ := by
  have hm := step_markers_normal p b i s hp
  by_cases h1 : p.getD 0 0 = 91
  · obtain ⟨t, ht⟩ := one_byte hp
    rw [h1] at ht
    subst ht
    rcases hk : find_close_bracket t with _ | k
    · apply normal_fall hm
      intro size sink log
      dsimp only [step_link, State.make]
      rw [if_pos h1]
      simp only [List.drop_succ_cons, List.drop_zero, hk, Option.map_none']
    · by_cases h2 : k + 1 < t.length ∧ t.getD (k + 1) 0 = 40
      · have h2p : k + 1 + 1 < (91 :: t).length ∧ (91 :: t).getD (k + 1 + 1) 0 = 40 := by
          simpa using h2
        rcases hj : memchr (t.drop (k + 2)) 41 (t.length - (k + 2)) with _ | j
        · apply normal_fall hm
          intro size sink log
          dsimp only [step_link, State.make]
          rw [if_pos h1]
          simp only [List.drop_succ_cons, List.drop_zero, hk, Option.map_some']
          rw [if_pos h2p]
          have e : (91 :: t).length - (k + 1) - 2 = t.length - (k + 2) := by simp; omega
          simp only [e, hj]
        · refine ⟨_, _, Rule.link t b i s k j hk h2 hj, fun size sink log => ?_⟩
          dsimp only [step_link, State.make]
          rw [if_pos h1]
          simp only [List.drop_succ_cons, List.drop_zero, hk, Option.map_some']
          rw [if_pos h2p]
          have e : (91 :: t).length - (k + 1) - 2 = t.length - (k + 2) := by simp; omega
          simp only [e, hj, EMIT_STR_eq, EMIT_N_eq, emit_span_eq, emits_emits,
            Nat.add_sub_cancel]
          rw [show k + 1 + 2 + j = k + 2 + j + 1 by omega]
          rfl
      · have h2p : ¬ (k + 1 + 1 < (91 :: t).length ∧ (91 :: t).getD (k + 1 + 1) 0 = 40) := by
          simpa using h2
        apply normal_fall hm
        intro size sink log
        dsimp only [step_link, State.make]
        rw [if_pos h1]
        simp only [List.drop_succ_cons, List.drop_zero, hk, Option.map_some']
        rw [if_neg h2p]
  · apply normal_fall hm
    intro size sink log
    dsimp only [step_link, State.make]
    rw [if_neg h1]

theorem step_inline_code_normal (p : List Nat) (b i s : Bool) (hp : 0 < p.length) :
    Normal step_inline_code ⟨p, b, i, s, false⟩ := by
  have hm := step_link_normal p b i s hp
  by_cases h1 : p.getD 0 0 = 96
  · obtain ⟨t, ht⟩ := one_byte hp
    rw [h1] at ht
    subst ht
    rcases hq : memchr t 96 t.length with _ | q
    · apply normal_fall hm
      intro size sink log
      dsimp only [step_inline_code, State.make]
      rw [if_pos h1]
      simp only [List.drop_succ_cons, List.drop_zero, List.length_cons, Nat.add_sub_cancel, hq]
    · refine ⟨_, _, Rule.inline_code t b i s q hq, fun size sink log => ?_⟩
      dsimp only [step_inline_code, State.make]
      rw [if_pos h1]
      simp only [List.drop_succ_cons, List.drop_zero, List.length_cons, Nat.add_sub_cancel, hq,
        EMIT_STR_eq, emit_span_eq, emits_emits]
      rw [show 1 + q = q + 1 by omega]
      rfl
  · apply normal_fall hm
    intro size sink log
    dsimp only [step_inline_code, State.make]
    rw [if_neg h1]

theorem step_normal (c : Ctl) (hp : 0 < c.p.length) : Normal step c := by
  obtain ⟨p, b, i, s, cb⟩ := c
  simp only at hp
  by_cases h1 : ¬ cb = true ∧ 3 ≤ p.length ∧ p.getD 0 0 = 96 ∧ p.getD 1 0 = 96 ∧ p.getD 2 0 = 96
  · obtain ⟨t, rfl⟩ := three_bytes h1.2
    have hc : cb = false := by simpa using h1.1
    subst hc
    refine ⟨_, _, Rule.fence_open t b i s, fun size sink log => ?_⟩
    dsimp only [step, State.make]
    rw [if_pos h1, EMIT_STR_eq]
    have e : (if 0 < (skip_line (List.drop 3 (96 :: 96 :: 96 :: t))).length
        then List.drop 1 (skip_line (List.drop 3 (96 :: 96 :: 96 :: t)))
        else skip_line (List.drop 3 (96 :: 96 :: 96 :: t))) = (skip_line t).drop 1 := by
      show (if 0 < (skip_line t).length then List.drop 1 (skip_line t) else skip_line t) = _
      split_ifs with h
      · rfl
      · have : skip_line t = [] := by
          cases hs : skip_line t with
          | nil => rfl
          | cons a u => rw [hs] at h; simp at h
        rw [this]; rfl
    rw [e]
    rfl
  by_cases h2 : cb = true ∧ 3 ≤ p.length ∧ p.getD 0 0 = 96 ∧ p.getD 1 0 = 96 ∧ p.getD 2 0 = 96
  · obtain ⟨t, rfl⟩ := three_bytes h2.2
    have hc : cb = true := h2.1
    subst hc
    refine ⟨_, _, Rule.fence_close t b i s, fun size sink log => ?_⟩
    dsimp only [step, State.make]
    rw [if_neg h1, if_pos h2, EMIT_STR_eq]
    rfl
  by_cases h3 : cb = true
  · subst h3
    obtain ⟨t, ht⟩ := one_byte hp
    generalize p.getD 0 0 = a at ht
    subst ht
    refine ⟨_, _, Rule.verbatim a t b i s, fun size sink log => ?_⟩
    dsimp only [step, State.make]
    rw [if_neg h1, if_neg h2, if_pos rfl, EMIT_ESC_eq]
    rfl
  · have hc : cb = false := by simpa using h3
    subst hc
    apply normal_fall (step_inline_code_normal p b i s hp)
    intro size sink log
    dsimp only [step, State.make]
    rw [if_neg h1, if_neg h2, if_neg h3]

/-! ## The scan terminates and follows the rules -/

theorem skip_line_length (p : List Nat) : (skip_line p).length ≤ p.length := by
  induction p with
  | nil => simp [skip_line]
  | cons a t ih =>
    unfold skip_line
    split_ifs
    · simp; omega
    · simp

theorem rule_length_lt {c d : Ctl} {es : List Emit} (h : Rule c es d) :
    d.p.length < c.p.length := by
  cases h with
  | fence_open t b i s =>
    have := skip_line_length t
    simp; omega
  | fence_close t b i s =>
    dsimp only
    split_ifs <;> simp <;> omega
  | inline_code t b i s q hq => simp; omega
  | link t b i s k j hk hparen hj => simp; omega
  | _ => simp only [List.length_cons]; omega

theorem scan_normal (fuel : Nat) (c : Ctl) (h : c.p.length ≤ fuel) :
    ∃ es d, Run c es d ∧ d.p = [] ∧
      ∀ size sink log,
        scan size fuel (State.make sink c log) =
          some (State.make (replay size es sink) d (log ++ es)) := by
  induction fuel generalizing c with
  | zero =>
    have hp : c.p = [] := List.eq_nil_of_length_eq_zero (by omega)
    refine ⟨[], c, Run.done c, hp, fun size sink log => ?_⟩
    simp [scan, State.make, hp, replay]
  | succ n ih =>
    by_cases hp : 0 < c.p.length
    · obtain ⟨es, d, hr, he⟩ := step_normal c hp
      have hlt := rule_length_lt hr
      obtain ⟨fs, e, hrun, hnil, hs⟩ := ih d (by omega)
      refine ⟨es ++ fs, e, Run.next hr hrun, hnil, fun size sink log => ?_⟩
      have h1 : scan size (n + 1) (State.make sink c log) =
          scan size n (step size (State.make sink c log)) := by
        have : 0 < (State.make sink c log).p.length := hp
        simp only [scan, this, if_true]
      rw [h1, he, hs, replay_append, List.append_assoc]
    · have hp : c.p = [] := List.eq_nil_of_length_eq_zero (by omega)
      refine ⟨[], c, Run.done c, hp, fun size sink log => ?_⟩
      simp [scan, State.make, hp, replay]

theorem close_unclosed_eq (size : Nat) (sink : Buffer × Nat) (d : Ctl) (log : List Emit) :
    close_unclosed size (State.make sink d log) =
      State.make (replay size (closers d) sink) d (log ++ closers d) := by
  obtain ⟨p, b, i, s, cb⟩ := d
  cases b <;> cases i <;> cases s <;> cases cb <;>
    simp [close_unclosed, State.make, closers, EMIT_STR_eq, State.emits, replay]

theorem convert_normal (md : List Nat) :
    ∃ es d, Run (Ctl.start md) es d ∧ d.p = [] ∧
      ∀ size html,
        convert md html size =
          some (State.make (replay size (es ++ closers d) (html, 0)) d (es ++ closers d)) := by
  obtain ⟨es, d, hrun, hnil, hs⟩ := scan_normal md.length (Ctl.start md) (le_refl _)
  refine ⟨es, d, hrun, hnil, fun size html => ?_⟩
  have h0 : init md html = State.make (html, 0) (Ctl.start md) [] := rfl
  unfold convert
  rw [h0, hs, Option.map_some', close_unclosed_eq, replay_append, List.nil_append]

theorem emissions_run (md : List Nat) :
    ∃ es d, Run (Ctl.start md) es d ∧ d.p = [] ∧ emissions md = es ++ closers d := by
  obtain ⟨es, d, hrun, hnil, hs⟩ := convert_normal md
  refine ⟨es, d, hrun, hnil, ?_⟩
  unfold emissions
  rw [hs]
  rfl

theorem convert_eq (md : List Nat) (html : Buffer) (size : Nat) :
    ∃ d, convert md html size =
      some (State.make (replay size (emissions md) (html, 0)) d (emissions md)) := by
  obtain ⟨es, d, -, -, hs⟩ := convert_normal md
  have he : emissions md = es ++ closers d := by
    unfold emissions
    rw [hs]
    rfl
  exact ⟨d, by rw [he, hs]⟩

/-! ## The buffer after a sequence of emissions -/

theorem text_of_cons (e : Emit) (es : List Emit) :
    text_of (e :: es) = e.bytes ++ text_of es := by
  simp [text_of]

theorem text_of_append (es fs : List Emit) :
    text_of (es ++ fs) = text_of es ++ text_of fs := by
  simp [text_of]

theorem replay_out (size : Nat) (es : List Emit) (s : Buffer × Nat) :
    (replay size es s).2 = s.2 + (text_of es).length := by
  induction es generalizing s with
  | nil => simp [replay, text_of]
  | cons e es ih =>
    have : replay size (e :: es) s = replay size es (push size s e) := rfl
    rw [this, ih, text_of_cons]
    simp [push]
    omega

theorem memcpy_zero (buf : Buffer) (pos : Nat) (s : List Nat) : memcpy buf pos s 0 = buf := by
  funext i
  simp [memcpy]

theorem memcpy_append (buf : Buffer) (pos : Nat) (a b : List Nat) :
    memcpy (memcpy buf pos a a.length) (pos + a.length) b b.length =
      memcpy buf pos (a ++ b) (a ++ b).length := by
  funext i
  simp only [memcpy, List.length_append]
  by_cases h1 : pos + a.length ≤ i ∧ i < pos + a.length + b.length
  · have h2 : pos ≤ i ∧ i < pos + (a.length + b.length) := by omega
    rw [if_pos h1, if_pos h2]
    have h3 : a.length ≤ i - pos := by omega
    simp only [List.getD_eq_getElem?_getD, List.getElem?_append_right h3]
    congr 2
    omega
  · rw [if_neg h1]
    by_cases h2 : pos ≤ i ∧ i < pos + a.length
    · have h3 : pos ≤ i ∧ i < pos + (a.length + b.length) := by omega
      rw [if_pos h2, if_pos h3]
      have h4 : i - pos < a.length := by omega
      simp only [List.getD_eq_getElem?_getD, List.getElem?_append_left h4]
    · have h3 : ¬ (pos ≤ i ∧ i < pos + (a.length + b.length)) := by omega
      rw [if_neg h2, if_neg h3]

theorem copied_from_of_le (size pos : Nat) (es : List Emit) (h : size ≤ pos) :
    copied_from size pos es = [] := by
  cases es with
  | nil => rfl
  | cons e es =>
    have : ¬ pos + e.bytes.length < size := by omega
    simp [copied_from, this]

theorem replay_buffer (size : Nat) (es : List Emit) (buf : Buffer) (pos : Nat) :
    (replay size es (buf, pos)).1 =
      memcpy buf pos (text_of (copied_from size pos es))
        (text_of (copied_from size pos es)).length := by
  induction es generalizing buf pos with
  | nil => simp [replay, copied_from, text_of, memcpy_zero]
  | cons e es ih =>
    have hr : replay size (e :: es) (buf, pos) = replay size es (push size (buf, pos) e) := rfl
    rw [hr]
    by_cases hf : pos + e.bytes.length < size
    · have hp : push size (buf, pos) e =
          (memcpy buf pos e.bytes e.bytes.length, pos + e.bytes.length) := by
        simp [push, emit, hf]
      rw [hp, ih]
      simp only [copied_from, hf, if_true, text_of_cons]
      exact memcpy_append buf pos e.bytes _
    · have hp : push size (buf, pos) e = (buf, pos + e.bytes.length) := by
        simp [push, emit, hf]
      rw [hp, ih, copied_from_of_le size _ es (by omega)]
      simp [copied_from, hf, text_of, memcpy_zero]

theorem copied_from_length (size pos : Nat) (es : List Emit) (h : pos < size) :
    pos + (text_of (copied_from size pos es)).length < size := by
  induction es generalizing pos with
  | nil => simpa [copied_from, text_of] using h
  | cons e es ih =>
    by_cases hf : pos + e.bytes.length < size
    · have := ih (pos + e.bytes.length) hf
      simp only [copied_from, hf, if_true, text_of_cons, List.length_append]
      omega
    · simpa [copied_from, hf, text_of] using h

theorem copied_from_all (size pos : Nat) (es : List Emit)
    (h : pos + (text_of es).length < size) : copied_from size pos es = es := by
  induction es generalizing pos with
  | nil => rfl
  | cons e es ih =>
    rw [text_of_cons, List.length_append] at h
    have hf : pos + e.bytes.length < size := by omega
    simp only [copied_from, hf, if_true]
    rw [ih (pos + e.bytes.length) (by omega)]

theorem copied_from_initial (size pos : Nat) (es : List Emit) :
    copied_from size pos es <+: es := by
  induction es generalizing pos with
  | nil => simp [copied_from]
  | cons e es ih =>
    by_cases hf : pos + e.bytes.length < size
    · simp only [copied_from, hf, if_true]
      exact (List.prefix_cons_inj e).mpr (ih _)
    · simp [copied_from, hf]

theorem copied_from_fits (size pos : Nat) (es1 : List Emit) (e : Emit) (es2 : List Emit) :
    pos + (text_of es1).length + e.bytes.length < size ↔
      es1.length < (copied_from size pos (es1 ++ e :: es2)).length := by
  induction es1 generalizing pos with
  | nil =>
    by_cases hf : pos + e.bytes.length < size
    · simp [copied_from, hf, text_of]
    · simp [copied_from, hf, text_of]
  | cons a es1 ih =>
    by_cases hf : pos + a.bytes.length < size
    · have hi := ih (pos + a.bytes.length)
      have hc : copied_from size pos (a :: es1 ++ e :: es2) =
          a :: copied_from size (pos + a.bytes.length) (es1 ++ e :: es2) := by
        simp [copied_from, hf]
      rw [hc, text_of_cons, List.length_append, List.length_cons, List.length_cons]
      omega
    · have hc : copied_from size pos (a :: es1 ++ e :: es2) = [] := by
        simp [copied_from, hf]
      rw [hc, text_of_cons, List.length_append, List.length_nil]
      omega

/-- The result of `md_to_telegram_html` on non-null arguments and a non-zero
size: the buffer receives the emissions that precede the first one that does
not fit, then a NUL, and the returned value is the length of the converted
text. -/
theorem md_to_telegram_html_eq (md : List Nat) (html : Buffer) (size : Nat) (h : 0 < size) :
    md_to_telegram_html (some md) (some html) size =
      some (some (store (memcpy html 0 (text_of (copied size md))
                    (text_of (copied size md)).length)
                  (if (converted md).length < size then (converted md).length else size - 1) 0),
            (converted md).length) := by
  obtain ⟨d, hd⟩ := convert_eq md html size
  have hs : size ≠ 0 := by omega
  simp only [md_to_telegram_html, hs, if_false, hd, Option.map_some']
  have hout : (State.make (replay size (emissions md) (html, 0)) d (emissions md)).out =
      (converted md).length := by
    show (replay size (emissions md) (html, 0)).2 = _
    rw [replay_out]
    simp [converted]
  have hbuf : (State.make (replay size (emissions md) (html, 0)) d (emissions md)).html =
      memcpy html 0 (text_of (copied size md)) (text_of (copied size md)).length := by
    show (replay size (emissions md) (html, 0)).1 = _
    rw [replay_buffer]
    rfl
  simp only [nul_terminate, hout, hbuf]
  split_ifs <;> rfl

/-! ## The contract of the converter -/

theorem contents_getElem (buf : Buffer) (n i : Nat) (h : i < (contents buf n).length) :
    (contents buf n)[i] = buf i := by
  simp [contents]

theorem contents_length (buf : Buffer) (n : Nat) : (contents buf n).length = n := by
  simp [contents]

theorem contents_store_memcpy (html : Buffer) (t : List Nat) (k : Nat) (hk : t.length ≤ k) :
    contents (store (memcpy html 0 t t.length) k 0) t.length = t := by
  apply List.ext_getElem
  · simp [contents]
  · intro i h1 h2
    rw [contents_getElem]
    have hi : i ≠ k := by omega
    have hr : 0 ≤ i ∧ i < 0 + t.length := by omega
    simp only [store, memcpy, hi, if_false, hr, if_true, Nat.sub_zero]
    simp [List.getD_eq_getElem?_getD, List.getElem?_eq_getElem h2]

theorem copied_all (md : List Nat) (size : Nat) (h : (converted md).length < size) :
    copied size md = emissions md := by
  apply copied_from_all
  simpa [converted] using h

theorem copied_length (md : List Nat) (size : Nat) (h : 0 < size) :
    (text_of (copied size md)).length < size := by
  simpa using copied_from_length size 0 (emissions md) h

/-- C1: when the length `L` of the converted text is below the capacity, the
call returns `L`, the first `L` bytes of the buffer are the whole converted
text and the byte at offset `L` is NUL. -/
theorem full_text_when_it_fits (md : List Nat) (html : Buffer) (size : Nat)
    (h : (converted md).length < size) :
    ∃ buf, md_to_telegram_html (some md) (some html) size =
        some (some buf, (converted md).length) ∧
      contents buf (converted md).length = converted md ∧
      buf (converted md).length = 0 := by
  refine ⟨_, md_to_telegram_html_eq md html size (by omega), ?_, ?_⟩
  · rw [copied_all md size h, if_pos h]
    exact contents_store_memcpy html (converted md) _ (le_refl _)
  · rw [if_pos h]
    simp [store]

theorem full_text_when_it_fits_witness :
    (converted (bytes "**bold**")).length < 32 ∧
    ∃ buf, md_to_telegram_html (some (bytes "**bold**")) (some (fun _ => 88)) 32 =
        some (some buf, (converted (bytes "**bold**")).length) ∧
      contents buf (converted (bytes "**bold**")).length = converted (bytes "**bold**") ∧
      buf (converted (bytes "**bold**")).length = 0 :=
  ⟨by decide, full_text_when_it_fits _ _ _ (by decide)⟩

/-- C2: for any two capacities of at least one byte the call returns the same
value, the length of the converted text, whether or not the output is
truncated. -/
theorem returns_logical_length (md : List Nat) (html1 html2 : Buffer) (c1 c2 : Nat)
    (h1 : 1 ≤ c1) (h2 : 1 ≤ c2) :
    ∃ b1 b2,
      md_to_telegram_html (some md) (some html1) c1 = some (some b1, (converted md).length) ∧
      md_to_telegram_html (some md) (some html2) c2 = some (some b2, (converted md).length) :=
  ⟨_, _, md_to_telegram_html_eq md html1 c1 h1, md_to_telegram_html_eq md html2 c2 h2⟩

theorem returns_logical_length_witness :
    (1 ≤ 4 ∧ 1 ≤ 64) ∧ (converted (bytes "a<")).length = 5 ∧
    ∃ b1 b2,
      md_to_telegram_html (some (bytes "a<")) (some (fun _ => 88)) 4 =
        some (some b1, (converted (bytes "a<")).length) ∧
      md_to_telegram_html (some (bytes "a<")) (some (fun _ => 0)) 64 =
        some (some b2, (converted (bytes "a<")).length) :=
  ⟨by decide, by decide, returns_logical_length _ _ _ 4 64 (by decide) (by decide)⟩

/-- C3: for a capacity of at least one byte the call leaves every byte at an
offset at or beyond the capacity as it was, whatever the initial content of
the buffer, and the buffer holds a NUL below the capacity: at offset `L` when
the logical length `L` is below the capacity, at offset `capacity - 1`
otherwise. -/
theorem writes_stay_within_capacity (md : List Nat) (html : Buffer) (size : Nat)
    (h : 1 ≤ size) :
    ∃ buf, md_to_telegram_html (some md) (some html) size =
        some (some buf, (converted md).length) ∧
      (∀ i, size ≤ i → buf i = html i) ∧
      (if (converted md).length < size then (converted md).length else size - 1) < size ∧
      buf (if (converted md).length < size then (converted md).length else size - 1) = 0 := by
  refine ⟨_, md_to_telegram_html_eq md html size h, ?_, ?_, ?_⟩
  · intro i hi
    have hc := copied_length md size h
    have h1 : i ≠ (if (converted md).length < size then (converted md).length else size - 1) := by
      split_ifs <;> omega
    have h2 : ¬ (0 ≤ i ∧ i < 0 + (text_of (copied size md)).length) := by omega
    simp only [store, memcpy, h1, if_false, h2]
  · split_ifs <;> omega
  · simp [store]

theorem writes_stay_within_capacity_witness :
    1 ≤ 4 ∧
    ∃ buf, md_to_telegram_html (some (bytes "a<")) (some (fun _ => 88)) 4 =
        some (some buf, (converted (bytes "a<")).length) ∧
      (∀ i, 4 ≤ i → buf i = (fun _ => 88) i) ∧
      (if (converted (bytes "a<")).length < 4 then (converted (bytes "a<")).length else 4 - 1)
        < 4 ∧
      buf (if (converted (bytes "a<")).length < 4 then (converted (bytes "a<")).length
        else 4 - 1) = 0 :=
  ⟨by decide, writes_stay_within_capacity _ _ 4 (by decide)⟩

theorem memcpy_at (html : Buffer) (a e b : List Nat) (k : Nat) (hk : k < e.length) :
    memcpy html 0 (a ++ e ++ b) (a ++ e ++ b).length (a.length + k) = e.getD k 0 := by
  have hr : 0 ≤ a.length + k ∧ a.length + k < 0 + (a ++ e ++ b).length := by
    simp only [List.length_append]; omega
  unfold memcpy
  rw [if_pos hr]
  simp only [Nat.sub_zero, List.getD_eq_getElem?_getD]
  rw [List.append_assoc, List.getElem?_append_right (by omega), Nat.add_sub_cancel_left,
    List.getElem?_append_left hk]

/-- C4: for a capacity of at least one byte, the emissions copied into the
buffer are an initial segment of the sequence of emissions: an emission passes
the test of `emit` exactly when it lies in that segment, so no emission that
follows a rejected one is copied; the buffer before the final NUL is the
initial buffer overwritten from offset 0 by the bytes of that segment, each
copied emission standing whole at its logical offset; and `out` is the sum of
the lengths of all the emissions. -/
theorem copies_whole_emissions (md : List Nat) (html : Buffer) (size : Nat) (h : 1 ≤ size) :
    ∃ st, convert md html size = some st ∧
      md_to_telegram_html (some md) (some html) size =
        some (some (nul_terminate size st), st.out) ∧
      st.log = emissions md ∧
      st.out = (text_of (emissions md)).length ∧
      copied size md <+: emissions md ∧
      (∀ es1 e es2, emissions md = es1 ++ e :: es2 →
        ((text_of es1).length + e.bytes.length < size ↔ es1.length < (copied size md).length)) ∧
      st.html = memcpy html 0 (text_of (copied size md)) (text_of (copied size md)).length ∧
      (∀ es1 e es2, copied size md = es1 ++ e :: es2 →
        ∀ k, k < e.bytes.length → st.html ((text_of es1).length + k) = e.bytes.getD k 0) := by
  obtain ⟨d, hd⟩ := convert_eq md html size
  have hbuf : (State.make (replay size (emissions md) (html, 0)) d (emissions md)).html =
      memcpy html 0 (text_of (copied size md)) (text_of (copied size md)).length := by
    show (replay size (emissions md) (html, 0)).1 = _
    rw [replay_buffer]
    rfl
  refine ⟨_, hd, ?_, rfl, ?_, copied_from_initial size 0 _, ?_, hbuf, ?_⟩
  · have hs : size ≠ 0 := by omega
    simp only [md_to_telegram_html, hs, if_false, hd, Option.map_some']
  · show (replay size (emissions md) (html, 0)).2 = _
    rw [replay_out]
    simp
  · intro es1 e es2 he
    have := copied_from_fits size 0 es1 e es2
    rw [← he] at this
    simpa [copied] using this
  · intro es1 e es2 he k hk
    rw [hbuf, he]
    have : text_of (es1 ++ e :: es2) = text_of es1 ++ e.bytes ++ text_of es2 := by
      rw [text_of_append, text_of_cons, List.append_assoc]
    rw [this]
    exact memcpy_at html _ _ _ k hk

theorem copies_whole_emissions_witness :
    1 ≤ 6 ∧
    ∃ st, convert (bytes "a<b") (fun _ => 88) 6 = some st ∧
      md_to_telegram_html (some (bytes "a<b")) (some (fun _ => 88)) 6 =
        some (some (nul_terminate 6 st), st.out) ∧
      st.log = emissions (bytes "a<b") ∧
      st.out = (text_of (emissions (bytes "a<b"))).length ∧
      copied 6 (bytes "a<b") <+: emissions (bytes "a<b") ∧
      (∀ es1 e es2, emissions (bytes "a<b") = es1 ++ e :: es2 →
        ((text_of es1).length + e.bytes.length < 6 ↔
          es1.length < (copied 6 (bytes "a<b")).length)) ∧
      st.html = memcpy (fun _ => 88) 0 (text_of (copied 6 (bytes "a<b")))
        (text_of (copied 6 (bytes "a<b"))).length ∧
      (∀ es1 e es2, copied 6 (bytes "a<b") = es1 ++ e :: es2 →
        ∀ k, k < e.bytes.length → st.html ((text_of es1).length + k) = e.bytes.getD k 0) :=
  ⟨by decide, copies_whole_emissions _ _ 6 (by decide)⟩

/-- C5, at the input `"a<"` with a buffer of 4 bytes that holds `'X'`
everywhere: the emission `"a"` is copied, the emission `"&lt;"` does not fit,
the NUL is stored at offset 3, and the string left in the buffer is `"aXX"`,
the copied emission followed by two bytes of the initial content. -/
theorem truncated_string_keeps_old_bytes :
    (md_to_telegram_html (some (bytes "a<")) (some (fun _ => 88)) 4).map
        (fun r => (r.1.map (fun buf => (contents buf 4, c_string buf 4)), r.2)) =
      some (some ([97, 88, 88, 0], bytes "aXX"), 5) ∧
    emissions (bytes "a<") = [Emit.esc 97, Emit.esc 60] ∧
    text_of (copied 4 (bytes "a<")) = bytes "a" := by
  decide

/-- C6: when the input is null, or the output buffer is null, or the size is
zero, the call returns 0 and the buffer, when there is one, is left as it
was. -/
theorem degenerate_call_is_noop (md : Option (List Nat)) (html : Option Buffer) (size : Nat)
    (h : md = none ∨ html = none ∨ size = 0) :
    md_to_telegram_html md html size = some (html, 0) := by
  rcases md with _ | m <;> rcases html with _ | b <;> try rfl
  rcases h with h | h | h
  · cases h
  · cases h
  · subst h; rfl

theorem degenerate_call_is_noop_witness :
    ((some (bytes "abc") = none ∨ some (fun _ : Nat => 88) = none ∨ 0 = 0) ∧
      md_to_telegram_html (some (bytes "abc")) (some (fun _ => 88)) 0 =
        some (some (fun _ => 88), 0)) ∧
    md_to_telegram_html none (some (fun _ => 88)) 16 = some (some (fun _ => 88), 0) ∧
    md_to_telegram_html (some (bytes "abc")) none 16 = some (none, 0) :=
  ⟨⟨Or.inr (Or.inr rfl), degenerate_call_is_noop _ _ 0 (Or.inr (Or.inr rfl))⟩,
   degenerate_call_is_noop none _ 16 (Or.inl rfl),
   degenerate_call_is_noop _ none 16 (Or.inr (Or.inl rfl))⟩

/-! ## The shape of the output -/

theorem fitting_output (md t : List Nat) (h : converted md = t) : Outputs md t := by
  subst h
  intro html size hs
  refine ⟨_, md_to_telegram_html_eq md html size (by omega), ?_, ?_⟩
  · rw [copied_all md size hs, if_pos hs]
    exact contents_store_memcpy html (converted md) _ (le_refl _)
  · rw [if_pos hs]
    simp [store]

theorem memchr_spec (s : List Nat) (c n j : Nat) (h : memchr s c n = some j) :
    j < n ∧ j < s.length ∧ s.getD j 0 = c ∧ ∀ k, k < j → s.getD k 0 ≠ c := by
  induction s generalizing n j with
  | nil => simp [memchr] at h
  | cons b s ih =>
    cases n with
    | zero => simp [memchr] at h
    | succ n =>
      simp only [memchr] at h
      split_ifs at h with hb
      · cases h
        simp [hb]
      · rcases hm : memchr s c n with _ | q
        · simp [hm] at h
        · simp only [hm, Option.map_some', Option.some.injEq] at h
          subst h
          obtain ⟨h1, h2, h3, h4⟩ := ih n q hm
          refine ⟨by omega, by simp; omega, by simpa using h3, ?_⟩
          intro k hk
          cases k with
          | zero => simpa using hb
          | succ k => simpa using h4 k (by omega)

theorem parsed_nil : Parsed [] := ⟨[], rfl, by simp⟩

theorem parsed_append {a b : List Nat} (ha : Parsed a) (hb : Parsed b) : Parsed (a ++ b) := by
  obtain ⟨pa, rfl, ha⟩ := ha
  obtain ⟨pb, rfl, hb⟩ := hb
  refine ⟨pa ++ pb, by simp, ?_⟩
  intro x hx
  rcases List.mem_append.mp hx with h | h
  · exact ha x h
  · exact hb x h

theorem parsed_one {x : List Nat} (h : Recognized x) : Parsed x :=
  ⟨[x], by simp, by simpa using h⟩

theorem parsed_tag {x : List Nat} (h : x ∈ FIXED_TAGS) : Parsed x :=
  parsed_one (Or.inl h)

theorem parsed_escape (c : Nat) : Parsed (escape c) := by
  apply parsed_one
  unfold escape
  split_ifs with h1 h2 h3
  · exact Or.inr (Or.inr (Or.inl (by simp [ENTITIES])))
  · exact Or.inr (Or.inr (Or.inl (by simp [ENTITIES])))
  · exact Or.inr (Or.inr (Or.inl (by simp [ENTITIES])))
  · exact Or.inr (Or.inr (Or.inr ⟨c, rfl, h1, h2, h3⟩))

theorem parsed_span (s : List Nat) : Parsed (text_of (s.map Emit.esc)) := by
  induction s with
  | nil => exact parsed_nil
  | cons c s ih =>
    rw [List.map_cons, text_of_cons]
    exact parsed_append (parsed_escape c) ih

theorem text_of_str (s : List Nat) : text_of [Emit.str s] = s := by
  simp [text_of, Emit.bytes]

theorem recognized_balanced {x : List Nat} (h : Recognized x) : x.count 60 = x.count 62 := by
  rcases h with h | ⟨u, hu, rfl⟩ | h | ⟨c, rfl, h60, h62, -⟩
  · simp only [FIXED_TAGS, List.mem_cons, List.mem_singleton, List.not_mem_nil, or_false] at h
    rcases h with h | h | h | h | h | h | h | h | h | h | h <;> subst h <;> decide
  · have h60 : u.count 60 = 0 := List.count_eq_zero.mpr (fun hm => (hu 60 hm).2.1 rfl)
    have h62 : u.count 62 = 0 := List.count_eq_zero.mpr (fun hm => (hu 62 hm).2.2.1 rfl)
    have ha : A_OPEN.count 60 = 1 ∧ A_OPEN.count 62 = 0 := by decide
    have hb : A_OPEN_END.count 60 = 0 ∧ A_OPEN_END.count 62 = 1 := by decide
    simp only [List.count_append, h60, h62, ha.1, ha.2, hb.1, hb.2]
  · simp only [ENTITIES, List.mem_cons, List.mem_singleton, List.not_mem_nil, or_false] at h
    rcases h with h | h | h <;> subst h <;> decide
  · have e60 : ([c] : List Nat).count 60 = 0 :=
      List.count_eq_zero.mpr (by simpa using fun e => h60 e.symm)
    have e62 : ([c] : List Nat).count 62 = 0 :=
      List.count_eq_zero.mpr (by simpa using fun e => h62 e.symm)
    rw [e60, e62]

theorem parsed_balanced {t : List Nat} (h : Parsed t) : t.count 60 = t.count 62 := by
  obtain ⟨pieces, rfl, hr⟩ := h
  induction pieces with
  | nil => rfl
  | cons x ps ih =>
    have hx := recognized_balanced (hr x (List.mem_cons_self x ps))
    have hp := ih (fun y hy => hr y (List.mem_cons_of_mem x hy))
    simp only [List.flatten_cons, List.count_append]
    omega

theorem shaped_append {es fs : List Emit} (h1 : Shaped es) (h2 : Shaped fs) :
    Shaped (es ++ fs) := by
  induction h1 with
  | nil => exact h2
  | tag s es h _ ih => exact Shaped.tag s _ h ih
  | entity c es h hb _ ih => exact Shaped.entity c _ h hb ih
  | byte c es h hb _ ih => exact Shaped.byte c _ h hb ih
  | anchor s n es _ ih => exact Shaped.anchor s n _ ih

theorem shaped_esc (c : Nat) {es : List Emit} (h : Shaped es) : Shaped (Emit.esc c :: es) := by
  by_cases h60 : c = 60
  · exact Shaped.entity c es (Or.inl h60) (by subst h60; decide) h
  by_cases h62 : c = 62
  · exact Shaped.entity c es (Or.inr (Or.inl h62)) (by subst h62; decide) h
  by_cases h38 : c = 38
  · exact Shaped.entity c es (Or.inr (Or.inr h38)) (by subst h38; decide) h
  · exact Shaped.byte c es ⟨h60, h62, h38⟩ (by simp [Emit.bytes, escape, h60, h62, h38]) h

theorem shaped_span (s : List Nat) : Shaped (s.map Emit.esc) := by
  induction s with
  | nil => exact Shaped.nil
  | cons c s ih => exact shaped_esc c ih

theorem shaped_tag {s : List Nat} (h : s ∈ FIXED_TAGS) : Shaped [Emit.str s] :=
  Shaped.tag s [] h Shaped.nil

theorem shaped_rule {c d : Ctl} {es : List Emit} (h : Rule c es d) : Shaped es := by
  cases h with
  | fence_open t b i s => exact shaped_tag (by simp [FIXED_TAGS])
  | fence_close t b i s => exact shaped_tag (by simp [FIXED_TAGS])
  | verbatim a t b i s => exact shaped_esc a Shaped.nil
  | literal a t b i s => exact shaped_esc a Shaped.nil
  | strike t b i s => cases s <;> exact shaped_tag (by simp [FIXED_TAGS])
  | bold_star t b i s => cases b <;> exact shaped_tag (by simp [FIXED_TAGS])
  | bold_underscore t b i s => cases b <;> exact shaped_tag (by simp [FIXED_TAGS])
  | italic t b i s => cases i <;> exact shaped_tag (by simp [FIXED_TAGS])
  | inline_code t b i s q hq =>
    exact shaped_append (shaped_append (shaped_tag (by simp [FIXED_TAGS])) (shaped_span _))
      (shaped_tag (by simp [FIXED_TAGS]))
  | link t b i s k j hk hparen hj =>
    exact shaped_append (shaped_append (Shaped.anchor _ _ [] Shaped.nil) (shaped_span _))
      (shaped_tag (by simp [FIXED_TAGS]))

theorem shaped_run {c d : Ctl} {es : List Emit} (h : Run c es d) : Shaped es := by
  induction h with
  | done c => exact Shaped.nil
  | next hr _ ih => exact shaped_append (shaped_rule hr) ih

theorem shaped_closers (d : Ctl) : Shaped (closers d) := by
  obtain ⟨p, b, i, s, cb⟩ := d
  unfold closers
  refine shaped_append (shaped_append (shaped_append ?_ ?_) ?_) ?_ <;> dsimp only <;>
    split_ifs <;>
    first
    | exact Shaped.nil
    | exact shaped_tag (by simp [FIXED_TAGS])

theorem shaped_emissions (md : List Nat) : Shaped (emissions md) := by
  obtain ⟨es, d, hrun, -, he⟩ := emissions_run md
  rw [he]
  exact shaped_append (shaped_run hrun) (shaped_closers d)

theorem parsed_of_shaped {es : List Emit} (h : Shaped es)
    (hc : ∀ e ∈ es, target_is_clean e = true) : Parsed (text_of es) := by
  induction h with
  | nil => exact parsed_nil
  | tag s es h _ ih =>
    rw [text_of_cons]
    exact parsed_append (parsed_tag h) (ih (fun e he => hc e (List.mem_cons_of_mem _ he)))
  | entity c es h hb _ ih =>
    rw [text_of_cons]
    exact parsed_append (parsed_one (Or.inr (Or.inr (Or.inl hb))))
      (ih (fun e he => hc e (List.mem_cons_of_mem _ he)))
  | byte c es h hb _ ih =>
    rw [text_of_cons, hb]
    exact parsed_append (parsed_one (Or.inr (Or.inr (Or.inr ⟨c, rfl, h⟩))))
      (ih (fun e he => hc e (List.mem_cons_of_mem _ he)))
  | anchor s n es _ ih =>
    have hraw := hc (Emit.raw s n) (by simp)
    have hrest : ∀ e ∈ es, target_is_clean e = true :=
      fun e he => hc e (by simp [he])
    have hu : ∀ c ∈ (Emit.raw s n).bytes, c ≠ 34 ∧ c ≠ 60 ∧ c ≠ 62 ∧ c ≠ 38 := by
      intro c hm
      have := List.all_eq_true.mp hraw c hm
      simp only [Bool.and_eq_true, bne_iff_ne, ne_eq] at this
      exact ⟨this.1.1.1, this.1.1.2, this.1.2, this.2⟩
    have ht : text_of (Emit.str A_OPEN :: Emit.raw s n :: Emit.str A_OPEN_END :: es) =
        (A_OPEN ++ (Emit.raw s n).bytes ++ A_OPEN_END) ++ text_of es := by
      simp [text_of_cons, Emit.bytes]
    rw [ht]
    exact parsed_append (parsed_one (Or.inr (Or.inl ⟨_, hu, rfl⟩))) (ih hrest)

/-- C7, as stated, fails at the input `[x](">)`: the target `">` of the link
is copied raw, so the output is `<a href="">">x</a>`, in which the tag
`<a href="">` is followed by the bytes `">`; the output holds two `'<'` and
three `'>'`, and no split into tags, entities and other bytes accounts for the
third `'>'`. -/
theorem link_target_leaves_bare_special :
    (md_to_telegram_html (some (bytes "[x](\">)")) (some (fun _ => 0)) 64).map
        (fun r => (r.1.map (fun buf => contents buf r.2), r.2)) =
      some (some (bytes "<a href=\"\">\">x</a>"), 18) ∧
    ¬ Parsed (bytes "<a href=\"\">\">x</a>") :=
  ⟨by decide, fun h => absurd (parsed_balanced h) (by decide)⟩

/-- C7, amended: with a sufficient capacity, the output is the concatenation
of the bytes of the emissions, and every emission is a fixed tag, an entity,
a byte other than `'<'`, `'>'` and `'&'`, or part of an opening anchor tag
made of `<a href="`, the link target copied raw and `">`; so each of the
three bytes occurs in the output only in a tag, in an entity or in a link
target. When no link target holds `'"'`, `'<'`, `'>'` or `'&'`, the output is
a concatenation of recognized pieces and holds no bare `'<'`, `'>'` or
`'&'`. -/
theorem specials_lie_in_tags_entities_or_targets (md : List Nat) (html : Buffer) (size : Nat)
    (h : (converted md).length < size) :
    ∃ buf : Buffer,
      md_to_telegram_html (some md) (some html) size = some (some buf, (converted md).length) ∧
      buf (converted md).length = 0 ∧
      contents buf (converted md).length = text_of (emissions md) ∧
      Shaped (emissions md) ∧
      ((∀ e ∈ emissions md, target_is_clean e = true) →
        Parsed (contents buf (converted md).length)) := by
  obtain ⟨buf, h1, h2, h3⟩ := fitting_output md _ rfl html size h
  refine ⟨buf, h1, h3, h2, shaped_emissions md, fun hc => ?_⟩
  rw [h2]
  exact parsed_of_shaped (shaped_emissions md) hc

theorem specials_lie_in_tags_entities_or_targets_witness :
    (converted (bytes "[a<b](u?v) 1<2 **x**")).length < 64 ∧
    (md_to_telegram_html (some (bytes "[a<b](u?v) 1<2 **x**")) (some (fun _ => 0)) 64).map
        (fun r => r.1.map (fun buf => contents buf r.2)) =
      some (some (bytes "<a href=\"u?v\">a&lt;b</a> 1&lt;2 <b>x</b>")) ∧
    (∀ e ∈ emissions (bytes "[a<b](u?v) 1<2 **x**"), target_is_clean e = true) ∧
    ¬ (∀ e ∈ emissions (bytes "[x](\">)"), target_is_clean e = true) ∧
    ∃ buf : Buffer,
      md_to_telegram_html (some (bytes "[a<b](u?v) 1<2 **x**")) (some (fun _ => 0)) 64 =
        some (some buf, (converted (bytes "[a<b](u?v) 1<2 **x**")).length) ∧
      buf (converted (bytes "[a<b](u?v) 1<2 **x**")).length = 0 ∧
      contents buf (converted (bytes "[a<b](u?v) 1<2 **x**")).length =
        text_of (emissions (bytes "[a<b](u?v) 1<2 **x**")) ∧
      Shaped (emissions (bytes "[a<b](u?v) 1<2 **x**")) ∧
      ((∀ e ∈ emissions (bytes "[a<b](u?v) 1<2 **x**"), target_is_clean e = true) →
        Parsed (contents buf (converted (bytes "[a<b](u?v) 1<2 **x**")).length)) :=
  ⟨by decide, by decide, by decide, by decide,
    specials_lie_in_tags_entities_or_targets _ _ 64 (by decide)⟩

/-! ## Balance of the emitted tags -/

theorem step_length_lt (size : Nat) (st : State) (h : 0 < st.p.length) :
    (step size st).p.length < st.p.length := by
  obtain ⟨es, d, hr, he⟩ :=
    step_normal ⟨st.p, st.in_bold, st.in_italic, st.in_strike, st.in_code_block⟩ h
  have := he size (st.html, st.out) st.log
  have e : State.make (st.html, st.out)
      ⟨st.p, st.in_bold, st.in_italic, st.in_strike, st.in_code_block⟩ st.log = st := rfl
  rw [e] at this
  rw [this]
  exact rule_length_lt hr

theorem scan_nil (size fuel : Nat) (st : State) (h : st.p = []) :
    scan size fuel st = some st := by
  cases fuel <;> simp [scan, h]

theorem scan_succ (size fuel : Nat) (st : State) (h : 0 < st.p.length) :
    scan size (fuel + 1) st = scan size fuel (step size st) := by
  simp only [scan, h, if_true]

theorem scan_more_fuel (size fuel : Nat) (st : State) (h : st.p.length ≤ fuel) :
    scan size (fuel + 1) st = scan size fuel st := by
  induction fuel generalizing st with
  | zero =>
    have hp : st.p = [] := List.eq_nil_of_length_eq_zero (by omega)
    rw [scan_nil _ _ _ hp, scan_nil _ _ _ hp]
  | succ n ih =>
    by_cases hp : 0 < st.p.length
    · rw [scan_succ _ _ _ hp, scan_succ _ _ _ hp]
      have := step_length_lt size st hp
      exact ih _ (by omega)
    · have hp : st.p = [] := List.eq_nil_of_length_eq_zero (by omega)
      rw [scan_nil _ _ _ hp, scan_nil _ _ _ hp]

theorem scan_fuel (size fuel : Nat) (st : State) (h : st.p.length ≤ fuel) :
    scan size fuel st = run_all size st := by
  unfold run_all
  obtain ⟨k, rfl⟩ := Nat.exists_eq_add_of_le h
  induction k with
  | zero => rfl
  | succ k ih =>
    rw [← Nat.add_assoc, scan_more_fuel _ _ _ (by omega)]
    exact ih (by omega)

theorem run_all_nil (size : Nat) (st : State) (h : st.p = []) : run_all size st = some st :=
  scan_nil _ _ _ h

theorem run_all_step (size : Nat) (st : State) (h : 0 < st.p.length) :
    run_all size st = run_all size (step size st) := by
  have hl := step_length_lt size st h
  obtain ⟨n, hn⟩ : ∃ n, st.p.length = n + 1 := ⟨st.p.length - 1, by omega⟩
  rw [← scan_fuel size n (step size st) (by omega)]
  unfold run_all
  rw [hn, scan_succ _ _ _ h]

theorem convert_run_all (md : List Nat) (html : Buffer) (size : Nat) :
    convert md html size = (run_all size (init md html)).map (close_unclosed size) := rfl

/-- A byte that opens no construct: none of the backtick, `'*'`, `'_'`, `'~'`
and `'['`. -/
theorem step_plain (size : Nat) (sink : Buffer × Nat) (log : List Emit) (a : Nat)
    (t : List Nat) (b i s cb : Bool)
    (ha : a ≠ 96 ∧ a ≠ 42 ∧ a ≠ 95 ∧ a ≠ 126 ∧ a ≠ 91) :
    step size (State.make sink ⟨a :: t, b, i, s, cb⟩ log) =
      State.make (replay size [Emit.esc a] sink) ⟨t, b, i, s, cb⟩ (log ++ [Emit.esc a]) := by
  obtain ⟨h96, h42, h95, h126, h91⟩ := ha
  cases cb
  · simp [step, step_inline_code, step_link, step_markers, State.make, h96, h42, h95, h126, h91,
      EMIT_ESC_eq, State.emits]
  · simp [step, State.make, h96, EMIT_ESC_eq, State.emits]

theorem run_all_plain (size : Nat) (s r : List Nat) (b i st cb : Bool)
    (hs : ∀ c ∈ s, c ≠ 96 ∧ c ≠ 42 ∧ c ≠ 95 ∧ c ≠ 126 ∧ c ≠ 91)
    (sink : Buffer × Nat) (log : List Emit) :
    run_all size (State.make sink ⟨s ++ r, b, i, st, cb⟩ log) =
      run_all size (State.make (replay size (s.map Emit.esc) sink) ⟨r, b, i, st, cb⟩
        (log ++ s.map Emit.esc)) := by
  induction s generalizing sink log with
  | nil => simp [replay]
  | cons a s ih =>
    have ha := hs a (List.mem_cons_self a s)
    have hs2 : ∀ c ∈ s, c ≠ 96 ∧ c ≠ 42 ∧ c ≠ 95 ∧ c ≠ 126 ∧ c ≠ 91 :=
      fun c hc => hs c (List.mem_cons_of_mem a hc)
    rw [run_all_step _ _ (by simp [State.make]), List.cons_append, step_plain _ _ _ _ _ _ _ _ _ ha,
      ih hs2]
    simp [replay]

theorem text_of_span (s : List Nat) : text_of (s.map Emit.esc) = esc s := by
  simp [text_of, esc, List.flatMap, Emit.bytes, Function.comp_def]

theorem emissions_of_run (md : List Nat) (d : Ctl) (es : List Emit)
    (h : ∀ sink log, run_all 0 (State.make sink (Ctl.start md) log) =
      some (State.make (replay 0 es sink) d (log ++ es))) :
    emissions md = es ++ closers d := by
  unfold emissions
  have h0 : init md (fun _ => 0) = State.make (fun _ => 0, 0) (Ctl.start md) [] := rfl
  rw [convert_run_all, h0, h, Option.map_some', close_unclosed_eq]
  rfl

theorem emissions_plain (md : List Nat)
    (h : ∀ c ∈ md, c ≠ 96 ∧ c ≠ 42 ∧ c ≠ 95 ∧ c ≠ 126 ∧ c ≠ 91) :
    emissions md = md.map Emit.esc := by
  have := emissions_of_run md ⟨[], false, false, false, false⟩ (md.map Emit.esc) (by
    intro sink log
    have := run_all_plain 0 md [] false false false false h sink log
    rw [List.append_nil] at this
    rw [Ctl.start, this, run_all_nil _ _ rfl])
  simpa [closers] using this

theorem esc_plain (s : List Nat) (h : ∀ c ∈ s, c ≠ 60 ∧ c ≠ 62 ∧ c ≠ 38) : esc s = s := by
  induction s with
  | nil => rfl
  | cons a s ih =>
    obtain ⟨h1, h2, h3⟩ := h a (List.mem_cons_self a s)
    have : esc (a :: s) = escape a ++ esc s := by simp [esc]
    rw [this, ih (fun c hc => h c (List.mem_cons_of_mem a hc))]
    simp [escape, h1, h2, h3]

/-- C9: for an input that holds none of the backtick, `'*'`, `'_'`, `'~'` and
`'['`, the output is the input with `'<'`, `'>'` and `'&'` replaced by their
entities and every other byte unchanged; when the input holds none of these
three bytes either, the output is the input and the returned value is its
length. -/
theorem plain_text_is_escaped (md : List Nat)
    (h : ∀ c ∈ md, c ≠ 96 ∧ c ≠ 42 ∧ c ≠ 95 ∧ c ≠ 126 ∧ c ≠ 91) :
    Outputs md (esc md) ∧
      ((∀ c ∈ md, c ≠ 60 ∧ c ≠ 62 ∧ c ≠ 38) → esc md = md ∧ Outputs md md) := by
  have hc : converted md = esc md := by
    unfold converted
    rw [emissions_plain md h, text_of_span]
  refine ⟨fitting_output md _ hc, fun h2 => ?_⟩
  have he := esc_plain md h2
  exact ⟨he, fitting_output md _ (by rw [hc, he])⟩

theorem plain_text_is_escaped_witness :
    (∀ c ∈ bytes "5 > 3 & 2 < 9", c ≠ 96 ∧ c ≠ 42 ∧ c ≠ 95 ∧ c ≠ 126 ∧ c ≠ 91) ∧
    esc (bytes "5 > 3 & 2 < 9") = bytes "5 &gt; 3 &amp; 2 &lt; 9" ∧
    (md_to_telegram_html (some (bytes "5 > 3 & 2 < 9")) (some (fun _ => 0)) 64).map
        (fun r => (r.1.map (fun buf => contents buf r.2), r.2)) =
      some (some (bytes "5 &gt; 3 &amp; 2 &lt; 9"), 23) ∧
    (Outputs (bytes "5 > 3 & 2 < 9") (esc (bytes "5 > 3 & 2 < 9")) ∧
      ((∀ c ∈ bytes "5 > 3 & 2 < 9", c ≠ 60 ∧ c ≠ 62 ∧ c ≠ 38) →
        esc (bytes "5 > 3 & 2 < 9") = bytes "5 > 3 & 2 < 9" ∧
          Outputs (bytes "5 > 3 & 2 < 9") (bytes "5 > 3 & 2 < 9"))) ∧
    (esc (bytes "plain text") = bytes "plain text" ∧
      Outputs (bytes "plain text") (bytes "plain text")) :=
  ⟨by decide, by decide, by decide, plain_text_is_escaped _ (by decide),
    (plain_text_is_escaped (bytes "plain text") (by decide)).2 (by decide)⟩

theorem step_bold_star (size : Nat) (sink : Buffer × Nat) (log : List Emit) (t : List Nat)
    (b i s : Bool) :
    step size (State.make sink ⟨42 :: 42 :: t, b, i, s, false⟩ log) =
      State.make (replay size [Emit.str (if b then B_CLOSE else B_OPEN)] sink)
        ⟨t, !b, i, s, false⟩ (log ++ [Emit.str (if b then B_CLOSE else B_OPEN)]) := by
  cases b <;>
    simp [step, step_inline_code, step_link, step_markers, State.make, EMIT_STR_eq, State.emits]

theorem step_bold_underscore (size : Nat) (sink : Buffer × Nat) (log : List Emit)
    (t : List Nat) (b i s : Bool) :
    step size (State.make sink ⟨95 :: 95 :: t, b, i, s, false⟩ log) =
      State.make (replay size [Emit.str (if b then B_CLOSE else B_OPEN)] sink)
        ⟨t, !b, i, s, false⟩ (log ++ [Emit.str (if b then B_CLOSE else B_OPEN)]) := by
  cases b <;>
    simp [step, step_inline_code, step_link, step_markers, State.make, EMIT_STR_eq, State.emits]

theorem step_strike (size : Nat) (sink : Buffer × Nat) (log : List Emit) (t : List Nat)
    (b i s : Bool) :
    step size (State.make sink ⟨126 :: 126 :: t, b, i, s, false⟩ log) =
      State.make (replay size [Emit.str (if s then S_CLOSE else S_OPEN)] sink)
        ⟨t, b, i, !s, false⟩ (log ++ [Emit.str (if s then S_CLOSE else S_OPEN)]) := by
  cases s <;>
    simp [step, step_inline_code, step_link, step_markers, State.make, EMIT_STR_eq, State.emits]

theorem step_italic (size : Nat) (sink : Buffer × Nat) (log : List Emit) (t : List Nat)
    (b i s : Bool) (ht : t.getD 0 0 ≠ 42) :
    step size (State.make sink ⟨42 :: t, b, i, s, false⟩ log) =
      State.make (replay size [Emit.str (if i then I_CLOSE else I_OPEN)] sink)
        ⟨t, b, !i, s, false⟩ (log ++ [Emit.str (if i then I_CLOSE else I_OPEN)]) := by
  have h1 : ¬ (1 < (42 :: t).length ∧ (42 :: t).getD 1 0 = 42) := by
    intro h
    exact ht (by simpa using h.2)
  have h2 : ¬ (1 < (42 :: t).length ∧ (42 :: t).getD 0 0 = 42 ∧ (42 :: t).getD 1 0 = 42) :=
    fun h => h1 ⟨h.1, h.2.2⟩
  have h3 : ¬ (1 < (42 :: t).length ∧ (42 :: t).getD 0 0 = 126 ∧ (42 :: t).getD 1 0 = 126) := by
    simp
  have h0 : ¬ ((42 :: t).getD 0 0 = 96) := by simp
  have h91 : ¬ ((42 :: t).getD 0 0 = 91) := by simp
  have hf1 : ¬ (¬ false = true ∧ 3 ≤ (42 :: t).length ∧ (42 :: t).getD 0 0 = 96 ∧
      (42 :: t).getD 1 0 = 96 ∧ (42 :: t).getD 2 0 = 96) := by simp
  have hf2 : ¬ (false = true ∧ 3 ≤ (42 :: t).length ∧ (42 :: t).getD 0 0 = 96 ∧
      (42 :: t).getD 1 0 = 96 ∧ (42 :: t).getD 2 0 = 96) := by simp
  have hf3 : ¬ (false = true) := by simp
  dsimp only [step, State.make]
  rw [if_neg hf1, if_neg hf2, if_neg hf3]
  dsimp only [step_inline_code]
  rw [if_neg h0]
  dsimp only [step_link]
  rw [if_neg h91]
  dsimp only [step_markers]
  rw [if_neg h3, if_neg h2, if_pos ⟨by simp, h1⟩]
  cases i <;> simp only [EMIT_STR_eq] <;> rfl

theorem replay_wrapped (size : Nat) (e1 e2 : Emit) (es : List Emit) (sink : Buffer × Nat) :
    replay size [e2] (replay size es (replay size [e1] sink)) =
      replay size ([e1] ++ es ++ [e2]) sink := by
  simp [replay, List.foldl_append]

theorem converted_wrapped (md s : List Nat) (tag1 tag2 : List Nat)
    (h : ∀ sink log, run_all 0 (State.make sink (Ctl.start md) log) =
      some (State.make (replay 0 ([Emit.str tag1] ++ s.map Emit.esc ++ [Emit.str tag2]) sink)
        ⟨[], false, false, false, false⟩
        (log ++ ([Emit.str tag1] ++ s.map Emit.esc ++ [Emit.str tag2])))) :
    converted md = tag1 ++ esc s ++ tag2 := by
  unfold converted
  rw [emissions_of_run md _ _ h]
  simp [closers, text_of_append, text_of_cons, text_of_span, text_of_str, Emit.bytes]
  rfl

theorem converted_bold_star (s : List Nat)
    (h : ∀ c ∈ s, c ≠ 96 ∧ c ≠ 42 ∧ c ≠ 95 ∧ c ≠ 126 ∧ c ≠ 91) :
    converted ([42, 42] ++ s ++ [42, 42]) = B_OPEN ++ esc s ++ B_CLOSE := by
  apply converted_wrapped
  intro sink log
  show run_all 0 (State.make sink ⟨42 :: 42 :: (s ++ [42, 42]), false, false, false, false⟩
    log) = _
  rw [run_all_step _ _ (by simp [State.make]), step_bold_star,
    run_all_plain _ _ _ _ _ _ _ h, run_all_step _ _ (by simp [State.make]), step_bold_star,
    run_all_nil _ _ rfl, replay_wrapped]
  simp

theorem converted_bold_underscore (s : List Nat)
    (h : ∀ c ∈ s, c ≠ 96 ∧ c ≠ 42 ∧ c ≠ 95 ∧ c ≠ 126 ∧ c ≠ 91) :
    converted ([95, 95] ++ s ++ [95, 95]) = B_OPEN ++ esc s ++ B_CLOSE := by
  apply converted_wrapped
  intro sink log
  show run_all 0 (State.make sink ⟨95 :: 95 :: (s ++ [95, 95]), false, false, false, false⟩
    log) = _
  rw [run_all_step _ _ (by simp [State.make]), step_bold_underscore,
    run_all_plain _ _ _ _ _ _ _ h, run_all_step _ _ (by simp [State.make]),
    step_bold_underscore, run_all_nil _ _ rfl, replay_wrapped]
  simp

theorem converted_strike (s : List Nat)
    (h : ∀ c ∈ s, c ≠ 96 ∧ c ≠ 42 ∧ c ≠ 95 ∧ c ≠ 126 ∧ c ≠ 91) :
    converted ([126, 126] ++ s ++ [126, 126]) = S_OPEN ++ esc s ++ S_CLOSE := by
  apply converted_wrapped
  intro sink log
  show run_all 0 (State.make sink ⟨126 :: 126 :: (s ++ [126, 126]), false, false, false, false⟩
    log) = _
  rw [run_all_step _ _ (by simp [State.make]), step_strike,
    run_all_plain _ _ _ _ _ _ _ h, run_all_step _ _ (by simp [State.make]), step_strike,
    run_all_nil _ _ rfl, replay_wrapped]
  simp

theorem converted_italic (s : List Nat)
    (h : ∀ c ∈ s, c ≠ 96 ∧ c ≠ 42 ∧ c ≠ 95 ∧ c ≠ 126 ∧ c ≠ 91) (hs : s ≠ []) :
    converted ([42] ++ s ++ [42]) = I_OPEN ++ esc s ++ I_CLOSE := by
  apply converted_wrapped
  intro sink log
  show run_all 0 (State.make sink ⟨42 :: (s ++ [42]), false, false, false, false⟩ log) = _
  have h1 : (s ++ [42]).getD 0 0 ≠ 42 := by
    cases s with
    | nil => exact absurd rfl hs
    | cons a s => simpa using (h a (List.mem_cons_self a s)).2.1
  rw [run_all_step _ _ (by simp [State.make]), step_italic _ _ _ _ _ _ _ h1,
    run_all_plain _ _ _ _ _ _ _ h, run_all_step _ _ (by simp [State.make]),
    step_italic _ _ _ _ _ _ _ (by simp), run_all_nil _ _ rfl, replay_wrapped]
  simp

/-- C10: for a text `s` that holds none of the backtick, `'*'`, `'_'`, `'~'`
and `'['`, the inputs `"**" + s + "**"` and `"__" + s + "__"` are converted to
`"<b>" + esc(s) + "</b>"`, the input `"~~" + s + "~~"` to
`"<s>" + esc(s) + "</s>"` and, when `s` is not empty, the input
`"*" + s + "*"` to `"<i>" + esc(s) + "</i>"`. -/
theorem paired_markers_wrap_escaped_text (s : List Nat)
    (h : ∀ c ∈ s, c ≠ 96 ∧ c ≠ 42 ∧ c ≠ 95 ∧ c ≠ 126 ∧ c ≠ 91) :
    Outputs (bytes "**" ++ s ++ bytes "**") (bytes "<b>" ++ esc s ++ bytes "</b>") ∧
    Outputs (bytes "__" ++ s ++ bytes "__") (bytes "<b>" ++ esc s ++ bytes "</b>") ∧
    Outputs (bytes "~~" ++ s ++ bytes "~~") (bytes "<s>" ++ esc s ++ bytes "</s>") ∧
    (s ≠ [] →
      Outputs (bytes "*" ++ s ++ bytes "*") (bytes "<i>" ++ esc s ++ bytes "</i>")) :=
  ⟨fitting_output _ _ (converted_bold_star s h),
   fitting_output _ _ (converted_bold_underscore s h),
   fitting_output _ _ (converted_strike s h),
   fun hs => fitting_output _ _ (converted_italic s h hs)⟩

theorem paired_markers_wrap_escaped_text_witness :
    (∀ c ∈ bytes "bold", c ≠ 96 ∧ c ≠ 42 ∧ c ≠ 95 ∧ c ≠ 126 ∧ c ≠ 91) ∧
    bytes "**" ++ bytes "bold" ++ bytes "**" = bytes "**bold**" ∧
    bytes "<b>" ++ esc (bytes "bold") ++ bytes "</b>" = bytes "<b>bold</b>" ∧
    (md_to_telegram_html (some (bytes "**bold**")) (some (fun _ => 0)) 64).map
        (fun r => (r.1.map (fun buf => contents buf r.2), r.2)) =
      some (some (bytes "<b>bold</b>"), 11) ∧
    (Outputs (bytes "**" ++ bytes "bold" ++ bytes "**")
        (bytes "<b>" ++ esc (bytes "bold") ++ bytes "</b>") ∧
      Outputs (bytes "__" ++ bytes "bold" ++ bytes "__")
        (bytes "<b>" ++ esc (bytes "bold") ++ bytes "</b>") ∧
      Outputs (bytes "~~" ++ bytes "bold" ++ bytes "~~")
        (bytes "<s>" ++ esc (bytes "bold") ++ bytes "</s>") ∧
      (bytes "bold" ≠ [] →
        Outputs (bytes "*" ++ bytes "bold" ++ bytes "*")
          (bytes "<i>" ++ esc (bytes "bold") ++ bytes "</i>"))) ∧
    Outputs (bytes "*" ++ bytes "a<b" ++ bytes "*")
      (bytes "<i>" ++ esc (bytes "a<b") ++ bytes "</i>") :=
  ⟨by decide, by decide, by decide, by decide, paired_markers_wrap_escaped_text _ (by decide),
    (paired_markers_wrap_escaped_text (bytes "a<b") (by decide)).2.2.2 (by decide)⟩

/-! ## Single iterations on given inputs -/

theorem drop_one_of_skip (t : List Nat) :
    (if 0 < (skip_line t).length then (skip_line t).drop 1 else skip_line t) =
      (skip_line t).drop 1 := by
  split_ifs with h
  · rfl
  · have : skip_line t = [] := List.eq_nil_of_length_eq_zero (by omega)
    rw [this]; rfl

theorem step_fence_open (size : Nat) (sink : Buffer × Nat) (log : List Emit) (t : List Nat)
    (b i s : Bool) :
    step size (State.make sink ⟨96 :: 96 :: 96 :: t, b, i, s, false⟩ log) =
      State.make (replay size [Emit.str PRE_OPEN] sink) ⟨(skip_line t).drop 1, b, i, s, true⟩
        (log ++ [Emit.str PRE_OPEN]) := by
  have h1 : ¬ false = true ∧ 3 ≤ (96 :: 96 :: 96 :: t).length ∧
      (96 :: 96 :: 96 :: t).getD 0 0 = 96 ∧ (96 :: 96 :: 96 :: t).getD 1 0 = 96 ∧
      (96 :: 96 :: 96 :: t).getD 2 0 = 96 := by simp
  dsimp only [step, State.make]
  rw [if_pos h1, EMIT_STR_eq]
  have e := drop_one_of_skip t
  simp only [List.drop_succ_cons, List.drop_zero] at e ⊢
  rw [e]
  rfl

theorem step_fence_close (size : Nat) (sink : Buffer × Nat) (log : List Emit) (t : List Nat)
    (b i s : Bool) :
    step size (State.make sink ⟨96 :: 96 :: 96 :: t, b, i, s, true⟩ log) =
      State.make (replay size [Emit.str PRE_CLOSE] sink)
        ⟨if 0 < t.length ∧ t.getD 0 0 = 10 then t.drop 1 else t, b, i, s, false⟩
        (log ++ [Emit.str PRE_CLOSE]) := by
  have h1 : ¬ (¬ true = true ∧ 3 ≤ (96 :: 96 :: 96 :: t).length ∧
      (96 :: 96 :: 96 :: t).getD 0 0 = 96 ∧ (96 :: 96 :: 96 :: t).getD 1 0 = 96 ∧
      (96 :: 96 :: 96 :: t).getD 2 0 = 96) := by simp
  have h2 : true = true ∧ 3 ≤ (96 :: 96 :: 96 :: t).length ∧
      (96 :: 96 :: 96 :: t).getD 0 0 = 96 ∧ (96 :: 96 :: 96 :: t).getD 1 0 = 96 ∧
      (96 :: 96 :: 96 :: t).getD 2 0 = 96 := by simp
  dsimp only [step, State.make]
  rw [if_neg h1, if_pos h2, EMIT_STR_eq]
  rfl

theorem step_verbatim (size : Nat) (sink : Buffer × Nat) (log : List Emit) (a : Nat)
    (t : List Nat) (b i s : Bool) (ha : a ≠ 96) :
    step size (State.make sink ⟨a :: t, b, i, s, true⟩ log) =
      State.make (replay size [Emit.esc a] sink) ⟨t, b, i, s, true⟩ (log ++ [Emit.esc a]) := by
  simp [step, State.make, ha, EMIT_ESC_eq, State.emits]

theorem not_fence_of_memchr_none {a : Nat} {t : List Nat}
    (h : a = 96 → memchr t 96 t.length = none) :
    ¬ (3 ≤ (a :: t).length ∧ (a :: t).getD 0 0 = 96 ∧ (a :: t).getD 1 0 = 96 ∧
      (a :: t).getD 2 0 = 96) := by
  rintro ⟨-, h0, h1, -⟩
  have ha : a = 96 := by simpa using h0
  have hm := h ha
  cases t with
  | nil => simp at h1
  | cons x u =>
    have hx : x = 96 := by simpa using h1
    subst hx
    simp [memchr] at hm

theorem step_inline_code_found (size : Nat) (sink : Buffer × Nat) (log : List Emit)
    (t : List Nat) (b i s : Bool) (q : Nat) (hq : memchr t 96 t.length = some q)
    (hf : t.getD 0 0 ≠ 96 ∨ t.getD 1 0 ≠ 96) :
    step size (State.make sink ⟨96 :: t, b, i, s, false⟩ log) =
      State.make
        (replay size ([Emit.str CODE_OPEN] ++ (t.take q).map Emit.esc ++ [Emit.str CODE_CLOSE])
          sink)
        ⟨t.drop (q + 1), b, i, s, false⟩
        (log ++ ([Emit.str CODE_OPEN] ++ (t.take q).map Emit.esc ++ [Emit.str CODE_CLOSE])) := by
  have h1 : ¬ (¬ false = true ∧ 3 ≤ (96 :: t).length ∧ (96 :: t).getD 0 0 = 96 ∧
      (96 :: t).getD 1 0 = 96 ∧ (96 :: t).getD 2 0 = 96) := by
    rintro ⟨-, -, -, h1, h2⟩
    rcases hf with hf | hf
    · exact hf (by simpa using h1)
    · exact hf (by simpa using h2)
  have h2 : ¬ (false = true ∧ 3 ≤ (96 :: t).length ∧ (96 :: t).getD 0 0 = 96 ∧
      (96 :: t).getD 1 0 = 96 ∧ (96 :: t).getD 2 0 = 96) := by simp
  have h3 : ¬ (false = true) := by simp
  have h4 : (96 :: t).getD 0 0 = 96 := by simp
  dsimp only [step, State.make]
  rw [if_neg h1, if_neg h2, if_neg h3]
  dsimp only [step_inline_code]
  rw [if_pos h4]
  simp only [List.drop_succ_cons, List.drop_zero, List.length_cons, Nat.add_sub_cancel, hq,
    EMIT_STR_eq, emit_span_eq, emits_emits]
  rw [show 1 + q = q + 1 by omega]
  rfl

theorem step_link_found (size : Nat) (sink : Buffer × Nat) (log : List Emit)
    (t : List Nat) (b i s : Bool) (k j : Nat)
    (hk : find_close_bracket t = some k)
    (hparen : k + 1 < t.length ∧ t.getD (k + 1) 0 = 40)
    (hj : memchr (t.drop (k + 2)) 41 (t.length - (k + 2)) = some j) :
    step size (State.make sink ⟨91 :: t, b, i, s, false⟩ log) =
      State.make
        (replay size ([Emit.str A_OPEN, Emit.raw (t.drop (k + 2)) j, Emit.str A_OPEN_END] ++
          (t.take k).map Emit.esc ++ [Emit.str A_CLOSE]) sink)
        ⟨t.drop (k + 2 + j + 1), b, i, s, false⟩
        (log ++ ([Emit.str A_OPEN, Emit.raw (t.drop (k + 2)) j, Emit.str A_OPEN_END] ++
          (t.take k).map Emit.esc ++ [Emit.str A_CLOSE])) := by
  have h1 : ¬ (¬ false = true ∧ 3 ≤ (91 :: t).length ∧ (91 :: t).getD 0 0 = 96 ∧
      (91 :: t).getD 1 0 = 96 ∧ (91 :: t).getD 2 0 = 96) := by simp
  have h2 : ¬ (false = true ∧ 3 ≤ (91 :: t).length ∧ (91 :: t).getD 0 0 = 96 ∧
      (91 :: t).getD 1 0 = 96 ∧ (91 :: t).getD 2 0 = 96) := by simp
  have h3 : ¬ (false = true) := by simp
  have h4 : ¬ ((91 :: t).getD 0 0 = 96) := by simp
  have h5 : (91 :: t).getD 0 0 = 91 := by simp
  have h2p : k + 1 + 1 < (91 :: t).length ∧ (91 :: t).getD (k + 1 + 1) 0 = 40 := by
    simpa using hparen
  have e : (91 :: t).length - (k + 1) - 2 = t.length - (k + 2) := by simp; omega
  dsimp only [step, State.make]
  rw [if_neg h1, if_neg h2, if_neg h3]
  dsimp only [step_inline_code]
  rw [if_neg h4]
  dsimp only [step_link]
  rw [if_pos h5]
  simp only [List.drop_succ_cons, List.drop_zero, hk, Option.map_some']
  rw [if_pos h2p]
  simp only [e, hj, EMIT_STR_eq, EMIT_N_eq, emit_span_eq, emits_emits, Nat.add_sub_cancel]
  rw [show k + 1 + 2 + j = k + 2 + j + 1 by omega]
  rfl

theorem step_literal (size : Nat) (sink : Buffer × Nat) (log : List Emit) (a : Nat)
    (t : List Nat) (b i s : Bool) (h42 : a ≠ 42) (h126 : a ≠ 126) (h95 : a ≠ 95)
    (hcode : a = 96 → memchr t 96 t.length = none)
    (hlink : a = 91 → ∀ k, find_close_bracket t = some k →
      ¬ (k + 1 < t.length ∧ t.getD (k + 1) 0 = 40)) :
    step size (State.make sink ⟨a :: t, b, i, s, false⟩ log) =
      State.make (replay size [Emit.esc a] sink) ⟨t, b, i, s, false⟩ (log ++ [Emit.esc a]) := by
  have hnf := not_fence_of_memchr_none hcode
  have h1 : ¬ (¬ false = true ∧ 3 ≤ (a :: t).length ∧ (a :: t).getD 0 0 = 96 ∧
      (a :: t).getD 1 0 = 96 ∧ (a :: t).getD 2 0 = 96) := fun h => hnf h.2
  have h2 : ¬ (false = true ∧ 3 ≤ (a :: t).length ∧ (a :: t).getD 0 0 = 96 ∧
      (a :: t).getD 1 0 = 96 ∧ (a :: t).getD 2 0 = 96) := by simp
  have h3 : ¬ (false = true) := by simp
  have hm : step_markers size (State.make sink ⟨a :: t, b, i, s, false⟩ log) =
      State.make (replay size [Emit.esc a] sink) ⟨t, b, i, s, false⟩ (log ++ [Emit.esc a]) := by
    simp [step_markers, State.make, h42, h126, h95, EMIT_ESC_eq, State.emits]
  have hl : step_link size (State.make sink ⟨a :: t, b, i, s, false⟩ log) =
      step_markers size (State.make sink ⟨a :: t, b, i, s, false⟩ log) := by
    by_cases h91 : (a :: t).getD 0 0 = 91
    · have ha : a = 91 := by simpa using h91
      dsimp only [step_link, State.make]
      rw [if_pos h91]
      rcases hk : find_close_bracket t with _ | k
      · simp only [List.drop_succ_cons, List.drop_zero, hk, Option.map_none']
      · have hno := hlink ha k hk
        have h2p : ¬ (k + 1 + 1 < (a :: t).length ∧ (a :: t).getD (k + 1 + 1) 0 = 40) := by
          simpa using hno
        simp only [List.drop_succ_cons, List.drop_zero, hk, Option.map_some']
        rw [if_neg h2p]
    · dsimp only [step_link, State.make]
      rw [if_neg h91]
  have hc : step_inline_code size (State.make sink ⟨a :: t, b, i, s, false⟩ log) =
      step_link size (State.make sink ⟨a :: t, b, i, s, false⟩ log) := by
    by_cases h96 : (a :: t).getD 0 0 = 96
    · have ha : a = 96 := by simpa using h96
      dsimp only [step_inline_code, State.make]
      rw [if_pos h96]
      simp only [List.drop_succ_cons, List.drop_zero, List.length_cons, Nat.add_sub_cancel,
        hcode ha]
    · dsimp only [step_inline_code, State.make]
      rw [if_neg h96]
  rw [← hm, ← hl, ← hc]
  dsimp only [step, State.make]
  rw [if_neg h1, if_neg h2, if_neg h3]

/-! ## Searches on given inputs -/

theorem memchr_none (s : List Nat) (c n : Nat) (h : c ∉ s) : memchr s c n = none := by
  induction s generalizing n with
  | nil => simp [memchr]
  | cons a s ih =>
    cases n with
    | zero => simp [memchr]
    | succ n =>
      have ha : a ≠ c := fun e => h (by simp [e])
      have hs : c ∉ s := fun e => h (List.mem_cons_of_mem a e)
      simp [memchr, ha, ih n hs]

theorem memchr_found (s r : List Nat) (c n : Nat) (h : c ∉ s) (hn : s.length < n) :
    memchr (s ++ c :: r) c n = some s.length := by
  induction s generalizing n with
  | nil =>
    cases n with
    | zero => simp at hn
    | succ n => simp [memchr]
  | cons a s ih =>
    cases n with
    | zero => simp at hn
    | succ n =>
      have ha : a ≠ c := fun e => h (by simp [e])
      have hs : c ∉ s := fun e => h (List.mem_cons_of_mem a e)
      have hn2 : s.length < n := by simpa using hn
      simp [memchr, ha, ih n hs hn2]

theorem find_close_bracket_found (s r : List Nat) (h93 : 93 ∉ s) (h10 : 10 ∉ s) :
    find_close_bracket (s ++ 93 :: r) = some s.length := by
  induction s with
  | nil => simp [find_close_bracket]
  | cons a s ih =>
    have ha : a ≠ 93 := fun e => h93 (by simp [e])
    have hb : a ≠ 10 := fun e => h10 (by simp [e])
    have hs : 93 ∉ s := fun e => h93 (List.mem_cons_of_mem a e)
    have hs2 : 10 ∉ s := fun e => h10 (List.mem_cons_of_mem a e)
    simp [find_close_bracket, ha, hb, ih hs hs2]

theorem skip_line_found (s r : List Nat) (h : 10 ∉ s) : skip_line (s ++ 10 :: r) = 10 :: r := by
  induction s with
  | nil => simp [skip_line]
  | cons a s ih =>
    have ha : a ≠ 10 := fun e => h (by simp [e])
    have hs : 10 ∉ s := fun e => h (List.mem_cons_of_mem a e)
    simp [skip_line, ha, ih hs]

theorem skip_line_none (s : List Nat) (h : 10 ∉ s) : skip_line s = [] := by
  induction s with
  | nil => simp [skip_line]
  | cons a s ih =>
    have ha : a ≠ 10 := fun e => h (by simp [e])
    have hs : 10 ∉ s := fun e => h (List.mem_cons_of_mem a e)
    simp [skip_line, ha, ih hs]

theorem raw_bytes (u r : List Nat) : (Emit.raw (u ++ r) u.length).bytes = u := by
  apply List.ext_getElem
  · simp [Emit.bytes]
  · intro k h1 h2
    simp [Emit.bytes, List.getElem?_append_left h2, List.getElem?_eq_getElem h2]

theorem run_all_verbatim (size : Nat) (s r : List Nat) (b i st : Bool) (hs : 96 ∉ s)
    (sink : Buffer × Nat) (log : List Emit) :
    run_all size (State.make sink ⟨s ++ r, b, i, st, true⟩ log) =
      run_all size (State.make (replay size (s.map Emit.esc) sink) ⟨r, b, i, st, true⟩
        (log ++ s.map Emit.esc)) := by
  induction s generalizing sink log with
  | nil => simp [replay]
  | cons a s ih =>
    have ha : a ≠ 96 := fun e => hs (by simp [e])
    have hs2 : 96 ∉ s := fun e => hs (List.mem_cons_of_mem a e)
    rw [run_all_step _ _ (by simp [State.make]), List.cons_append,
      step_verbatim _ _ _ _ _ _ _ _ ha, ih hs2]
    simp [replay]

theorem converted_inline_code (s : List Nat) (h : 96 ∉ s) :
    converted ([96] ++ s ++ [96]) = CODE_OPEN ++ esc s ++ CODE_CLOSE := by
  apply converted_wrapped
  intro sink log
  show run_all 0 (State.make sink ⟨96 :: (s ++ [96]), false, false, false, false⟩ log) = _
  have hq : memchr (s ++ [96]) 96 (s ++ [96]).length = some s.length :=
    memchr_found s [] 96 _ h (by simp)
  have hf : (s ++ [96]).getD 0 0 ≠ 96 ∨ (s ++ [96]).getD 1 0 ≠ 96 := by
    cases s with
    | nil => right; simp
    | cons a s => left; simpa using fun e => h (by simp [e])
  rw [run_all_step _ _ (by simp [State.make]), step_inline_code_found _ _ _ _ _ _ _ _ hq hf,
    run_all_nil _ _ (by simp [State.make])]
  simp

theorem converted_link (t u : List Nat) (h93 : 93 ∉ t) (h10 : 10 ∉ t) (hu : 41 ∉ u) :
    converted ([91] ++ t ++ [93, 40] ++ u ++ [41]) =
      A_OPEN ++ u ++ A_OPEN_END ++ esc t ++ A_CLOSE := by
  have hshape : [91] ++ t ++ [93, 40] ++ u ++ [41] = 91 :: (t ++ 93 :: 40 :: (u ++ [41])) := by
    simp
  have hk : find_close_bracket (t ++ 93 :: 40 :: (u ++ [41])) = some t.length :=
    find_close_bracket_found t _ h93 h10
  have hparen : t.length + 1 < (t ++ 93 :: 40 :: (u ++ [41])).length ∧
      (t ++ 93 :: 40 :: (u ++ [41])).getD (t.length + 1) 0 = 40 := by
    refine ⟨by simp, ?_⟩
    rw [List.getD_eq_getElem?_getD, List.getElem?_append_right (by omega)]
    simp
  have hdrop : (t ++ 93 :: 40 :: (u ++ [41])).drop (t.length + 2) = u ++ [41] := by
    rw [List.drop_append_eq_append_drop]
    simp
  have hj : memchr ((t ++ 93 :: 40 :: (u ++ [41])).drop (t.length + 2)) 41
      ((t ++ 93 :: 40 :: (u ++ [41])).length - (t.length + 2)) = some u.length := by
    rw [hdrop]
    exact memchr_found u [] 41 _ hu (by simp; omega)
  have hrun := emissions_of_run ([91] ++ t ++ [93, 40] ++ u ++ [41])
    ⟨[], false, false, false, false⟩
    ([Emit.str A_OPEN, Emit.raw (u ++ [41]) u.length, Emit.str A_OPEN_END] ++ t.map Emit.esc ++
      [Emit.str A_CLOSE]) (by
    intro sink log
    rw [hshape]
    show run_all 0 (State.make sink ⟨91 :: (t ++ 93 :: 40 :: (u ++ [41])), false, false, false,
      false⟩ log) = _
    have hnil : (t ++ 93 :: 40 :: (u ++ [41])).drop (t.length + 2 + u.length + 1) = [] := by
      apply List.drop_eq_nil_of_le
      simp; omega
    rw [run_all_step _ _ (by simp [State.make]), step_link_found _ _ _ _ _ _ _ _ _ hk hparen hj,
      hnil, run_all_nil _ _ rfl, hdrop]
    simp)
  unfold converted
  rw [hrun]
  simp only [closers, text_of_append, text_of_cons, text_of_span, raw_bytes]
  simp [text_of, Emit.bytes]

theorem converted_fence (t b tail : List Nat) (ht : 10 ∉ t) (hb : 96 ∉ b)
    (htail : tail = [] ∨ tail = [10]) :
    converted ([96, 96, 96] ++ t ++ [10] ++ b ++ [96, 96, 96] ++ tail) =
      PRE_OPEN ++ esc b ++ PRE_CLOSE := by
  have hshape : [96, 96, 96] ++ t ++ [10] ++ b ++ [96, 96, 96] ++ tail =
      96 :: 96 :: 96 :: (t ++ 10 :: (b ++ 96 :: 96 :: 96 :: tail)) := by simp
  rw [hshape]
  apply converted_wrapped
  intro sink log
  show run_all 0 (State.make sink ⟨96 :: 96 :: 96 :: (t ++ 10 :: (b ++ 96 :: 96 :: 96 :: tail)),
    false, false, false, false⟩ log) = _
  have hend : (if 0 < tail.length ∧ tail.getD 0 0 = 10 then tail.drop 1 else tail) = [] := by
    rcases htail with h | h <;> subst h <;> simp
  rw [run_all_step _ _ (by simp [State.make]), step_fence_open, skip_line_found _ _ ht,
    List.drop_succ_cons, List.drop_zero, run_all_verbatim _ _ _ _ _ _ hb,
    run_all_step _ _ (by simp [State.make]), step_fence_close, hend,
    run_all_nil _ _ rfl, replay_wrapped]
  simp

theorem converted_fence_no_newline (r : List Nat) (h : 10 ∉ r) :
    converted ([96, 96, 96] ++ r) = PRE_OPEN ++ PRE_CLOSE := by
  have hrun := emissions_of_run ([96, 96, 96] ++ r) ⟨[], false, false, false, true⟩
    [Emit.str PRE_OPEN] (by
    intro sink log
    show run_all 0 (State.make sink ⟨96 :: 96 :: 96 :: r, false, false, false, false⟩ log) = _
    rw [run_all_step _ _ (by simp [State.make]), step_fence_open, skip_line_none _ h,
      run_all_nil _ _ rfl]
    rfl)
  unfold converted
  rw [hrun]
  simp [closers, text_of, Emit.bytes]

/-! ## Code spans, links and fenced blocks -/

/-- C11: for every text `s` without a backtick, the input made of a backtick,
`s` and a backtick is converted to `"<code>" + esc(s) + "</code>"`: the bytes
of the span go through the escaping rule only, so `'*'`, `'~'`, `'_'`, `'['`
and newlines inside the span are not interpreted. -/
theorem inline_code_span_is_escaped (s : List Nat) (h : 96 ∉ s) :
    Outputs ([96] ++ s ++ [96]) (bytes "<code>" ++ esc s ++ bytes "</code>") :=
  fitting_output _ _ (converted_inline_code s h)

theorem inline_code_span_is_escaped_witness :
    96 ∉ bytes "code" ∧
    (md_to_telegram_html (some ([96] ++ bytes "code" ++ [96])) (some (fun _ => 0)) 64).map
        (fun r => (r.1.map (fun buf => contents buf r.2), r.2)) =
      some (some (bytes "<code>code</code>"), 17) ∧
    Outputs ([96] ++ bytes "code" ++ [96])
      (bytes "<code>" ++ esc (bytes "code") ++ bytes "</code>") ∧
    bytes "<code>" ++ esc (bytes "*a_[b](c)~~<\n") ++ bytes "</code>" =
      bytes "<code>*a_[b](c)~~&lt;\n</code>" ∧
    Outputs ([96] ++ bytes "*a_[b](c)~~<\n" ++ [96])
      (bytes "<code>" ++ esc (bytes "*a_[b](c)~~<\n") ++ bytes "</code>") :=
  ⟨by decide, by decide, inline_code_span_is_escaped _ (by decide), by decide,
    inline_code_span_is_escaped (bytes "*a_[b](c)~~<\n") (by decide)⟩

/-- C12: for every link text `t` without `']'` and without newline and every
target `u` without `')'`, the input `"[" + t + "](" + u + ")"` is converted to
`"<a href=\"" + u + "\">" + esc(t) + "</a>"`: the target is copied as it is
and the text goes through the escaping rule only. -/
theorem link_copies_target_raw (t u : List Nat) (ht : 93 ∉ t ∧ 10 ∉ t) (hu : 41 ∉ u) :
    Outputs (bytes "[" ++ t ++ bytes "](" ++ u ++ bytes ")")
      (bytes "<a href=\"" ++ u ++ bytes "\">" ++ esc t ++ bytes "</a>") :=
  fitting_output _ _ (converted_link t u ht.1 ht.2 hu)

theorem link_copies_target_raw_witness :
    ((93 ∉ bytes "text" ∧ 10 ∉ bytes "text") ∧ 41 ∉ bytes "http://x") ∧
    (md_to_telegram_html (some (bytes "[text](http://x)")) (some (fun _ => 0)) 64).map
        (fun r => (r.1.map (fun buf => contents buf r.2), r.2)) =
      some (some (bytes "<a href=\"http://x\">text</a>"), 27) ∧
    Outputs (bytes "[" ++ bytes "text" ++ bytes "](" ++ bytes "http://x" ++ bytes ")")
      (bytes "<a href=\"" ++ bytes "http://x" ++ bytes "\">" ++ esc (bytes "text") ++
        bytes "</a>") ∧
    bytes "<a href=\"" ++ bytes "a&b<c" ++ bytes "\">" ++ esc (bytes "*x* & [y") ++
        bytes "</a>" = bytes "<a href=\"a&b<c\">*x* &amp; [y</a>" ∧
    Outputs (bytes "[" ++ bytes "*x* & [y" ++ bytes "](" ++ bytes "a&b<c" ++ bytes ")")
      (bytes "<a href=\"" ++ bytes "a&b<c" ++ bytes "\">" ++ esc (bytes "*x* & [y") ++
        bytes "</a>") :=
  ⟨by decide, by decide, link_copies_target_raw _ _ (by decide) (by decide), by decide,
    link_copies_target_raw (bytes "*x* & [y") (bytes "a&b<c") (by decide) (by decide)⟩

/-- C13: for every language tag `t` without newline and every body `b` without
a backtick, the input made of three backticks, `t`, a newline, `b` and three
backticks, followed or not by one newline, is converted to
`"<pre>" + esc(b) + "</pre>"`: the tag and its line are dropped, the trailing
newline is dropped, and the body goes through the escaping rule only. -/
theorem fenced_block_is_escaped (t b : List Nat) (ht : 10 ∉ t) (hb : 96 ∉ b) :
    Outputs ([96, 96, 96] ++ t ++ bytes "\n" ++ b ++ [96, 96, 96])
      (bytes "<pre>" ++ esc b ++ bytes "</pre>") ∧
    Outputs ([96, 96, 96] ++ t ++ bytes "\n" ++ b ++ [96, 96, 96] ++ bytes "\n")
      (bytes "<pre>" ++ esc b ++ bytes "</pre>") := by
  constructor
  · have := converted_fence t b [] ht hb (Or.inl rfl)
    rw [List.append_nil] at this
    exact fitting_output _ _ this
  · exact fitting_output _ _ (converted_fence t b [10] ht hb (Or.inr rfl))

theorem fenced_block_is_escaped_witness :
    (10 ∉ bytes "py" ∧ 96 ∉ bytes "x=1\n") ∧
    (md_to_telegram_html (some ([96, 96, 96] ++ bytes "py\nx=1\n" ++ [96, 96, 96]))
        (some (fun _ => 0)) 64).map
        (fun r => (r.1.map (fun buf => contents buf r.2), r.2)) =
      some (some (bytes "<pre>x=1\n</pre>"), 15) ∧
    (Outputs ([96, 96, 96] ++ bytes "py" ++ bytes "\n" ++ bytes "x=1\n" ++ [96, 96, 96])
        (bytes "<pre>" ++ esc (bytes "x=1\n") ++ bytes "</pre>") ∧
      Outputs ([96, 96, 96] ++ bytes "py" ++ bytes "\n" ++ bytes "x=1\n" ++ [96, 96, 96] ++
          bytes "\n")
        (bytes "<pre>" ++ esc (bytes "x=1\n") ++ bytes "</pre>")) ∧
    bytes "<pre>" ++ esc (bytes "*a* ~~b~~ __c__ [d](e) <f>") ++ bytes "</pre>" =
      bytes "<pre>*a* ~~b~~ __c__ [d](e) &lt;f&gt;</pre>" ∧
    (Outputs ([96, 96, 96] ++ [] ++ bytes "\n" ++ bytes "*a* ~~b~~ __c__ [d](e) <f>" ++
          [96, 96, 96])
        (bytes "<pre>" ++ esc (bytes "*a* ~~b~~ __c__ [d](e) <f>") ++ bytes "</pre>") ∧
      Outputs ([96, 96, 96] ++ [] ++ bytes "\n" ++ bytes "*a* ~~b~~ __c__ [d](e) <f>" ++
          [96, 96, 96] ++ bytes "\n")
        (bytes "<pre>" ++ esc (bytes "*a* ~~b~~ __c__ [d](e) <f>") ++ bytes "</pre>")) :=
  ⟨by decide, by decide, fenced_block_is_escaped _ _ (by decide) (by decide), by decide,
    fenced_block_is_escaped [] (bytes "*a* ~~b~~ __c__ [d](e) <f>") (by decide) (by decide)⟩

/-- C20: for every input that starts with three backticks and holds no
newline, the output is `"<pre></pre>"` and the returned value is 11: the
opening fence takes the rest of the input as its language tag, so whatever
follows the fence is dropped. -/
theorem fence_without_newline_drops_content (r : List Nat) (h : 10 ∉ r) :
    Outputs ([96, 96, 96] ++ r) (bytes "<pre></pre>") ∧ (bytes "<pre></pre>").length = 11 :=
  ⟨fitting_output _ _ (converted_fence_no_newline r h), rfl⟩

theorem fence_without_newline_drops_content_witness :
    10 ∉ bytes "code" ++ [96, 96, 96] ∧
    (md_to_telegram_html (some ([96, 96, 96] ++ (bytes "code" ++ [96, 96, 96])))
        (some (fun _ => 0)) 64).map
        (fun r => (r.1.map (fun buf => contents buf r.2), r.2)) =
      some (some (bytes "<pre></pre>"), 11) ∧
    (Outputs ([96, 96, 96] ++ (bytes "code" ++ [96, 96, 96])) (bytes "<pre></pre>") ∧
      (bytes "<pre></pre>").length = 11) :=
  ⟨by decide, by decide, fence_without_newline_drops_content _ (by decide)⟩

/-! ## Malformed delimiters and closing of open tags -/

theorem find_close_bracket_spec (t : List Nat) (k : Nat) (h : find_close_bracket t = some k) :
    k < t.length ∧ t.getD k 0 = 93 := by
  induction t generalizing k with
  | nil => simp [find_close_bracket] at h
  | cons a t ih =>
    simp only [find_close_bracket] at h
    split_ifs at h with h10 h93
    · cases h
      simp [h93]
    · rcases hm : find_close_bracket t with _ | q
      · simp [hm] at h
      · simp only [hm, Option.map_some', Option.some.injEq] at h
        subst h
        obtain ⟨h1, h2⟩ := ih q hm
        exact ⟨by simp; omega, by simpa using h2⟩

theorem occurrences_pos (t : List Nat) (k : Nat) (h1 : t.getD k 0 = 93)
    (h2 : t.getD (k + 1) 0 = 40) : 0 < occurrences [93, 40] t := by
  induction t generalizing k with
  | nil => simp at h1
  | cons a t ih =>
    cases k with
    | zero =>
      have ha : a = 93 := by simpa using h1
      subst ha
      cases t with
      | nil => simp at h2
      | cons x u =>
        have hx : x = 40 := by simpa using h2
        subst hx
        simp [occurrences, List.isPrefixOf]
    | succ k =>
      have := ih k (by simpa using h1) (by simpa using h2)
      simp only [occurrences]
      omega

theorem run_all_literal (size : Nat) (md : List Nat) (b i s : Bool)
    (h42 : 42 ∉ md) (h126 : 126 ∉ md) (h95 : 95 ∉ md) (hcount : md.count 96 ≤ 1)
    (hocc : occurrences [93, 40] md = 0) (sink : Buffer × Nat) (log : List Emit) :
    run_all size (State.make sink ⟨md, b, i, s, false⟩ log) =
      some (State.make (replay size (md.map Emit.esc) sink) ⟨[], b, i, s, false⟩
        (log ++ md.map Emit.esc)) := by
  induction md generalizing sink log with
  | nil => simp [run_all_nil _ _ (rfl : (State.make sink ⟨[], b, i, s, false⟩ log).p = []), replay]
  | cons a t ih =>
    have ha42 : a ≠ 42 := fun e => h42 (by simp [e])
    have ha126 : a ≠ 126 := fun e => h126 (by simp [e])
    have ha95 : a ≠ 95 := fun e => h95 (by simp [e])
    have hocc2 : occurrences [93, 40] t = 0 := by
      simp only [occurrences] at hocc
      omega
    have hcount2 : t.count 96 ≤ 1 := by
      have := List.count_le_count_cons 96 a t
      omega
    have hcode : a = 96 → memchr t 96 t.length = none := by
      intro e
      subst e
      apply memchr_none
      rw [List.count_cons_self] at hcount
      exact List.count_eq_zero.mp (by omega)
    have hlink : a = 91 → ∀ k, find_close_bracket t = some k →
        ¬ (k + 1 < t.length ∧ t.getD (k + 1) 0 = 40) := by
      intro _ k hk hp
      have := occurrences_pos t k (find_close_bracket_spec t k hk).2 hp.2
      omega
    rw [run_all_step _ _ (by simp [State.make]),
      step_literal _ _ _ _ _ _ _ _ ha42 ha126 ha95 hcode hlink,
      ih (fun e => h42 (List.mem_cons_of_mem a e)) (fun e => h126 (List.mem_cons_of_mem a e))
        (fun e => h95 (List.mem_cons_of_mem a e)) hcount2 hocc2]
    simp [replay]

theorem emissions_literal (md : List Nat)
    (h42 : 42 ∉ md) (h126 : 126 ∉ md) (h95 : 95 ∉ md) (hcount : md.count 96 ≤ 1)
    (hocc : occurrences [93, 40] md = 0) : emissions md = md.map Emit.esc := by
  have := emissions_of_run md ⟨[], false, false, false, false⟩ (md.map Emit.esc)
    (fun sink log => run_all_literal 0 md false false false h42 h126 h95 hcount hocc sink log)
  simpa [closers] using this

/-- C18: for every input without `'*'`, `'~'` and `'_'`, with at most one
backtick and with no `']'` immediately followed by `'('`, every emission is
the escaping of one input byte, so the output is the input through the
escaping rule: the lone backtick and every bracket come out as literal bytes
and no tag is produced. -/
theorem malformed_delimiters_are_literal (md : List Nat)
    (hmark : 42 ∉ md ∧ 126 ∉ md ∧ 95 ∉ md) (hcount : md.count 96 ≤ 1)
    (hocc : occurrences (bytes "](") md = 0) :
    emissions md = md.map Emit.esc ∧ Outputs md (esc md) := by
  have he := emissions_literal md hmark.1 hmark.2.1 hmark.2.2 hcount hocc
  refine ⟨he, fitting_output md _ ?_⟩
  unfold converted
  rw [he, text_of_span]

theorem malformed_delimiters_are_literal_witness :
    ((42 ∉ [96] ++ bytes "a [b] (c) [d]e(f) <g>" ∧ 126 ∉ [96] ++ bytes "a [b] (c) [d]e(f) <g>" ∧
        95 ∉ [96] ++ bytes "a [b] (c) [d]e(f) <g>") ∧
      ([96] ++ bytes "a [b] (c) [d]e(f) <g>").count 96 ≤ 1 ∧
      occurrences (bytes "](") ([96] ++ bytes "a [b] (c) [d]e(f) <g>") = 0) ∧
    esc ([96] ++ bytes "a [b] (c) [d]e(f) <g>") =
      [96] ++ bytes "a [b] (c) [d]e(f) &lt;g&gt;" ∧
    (md_to_telegram_html (some ([96] ++ bytes "a [b] (c) [d]e(f) <g>")) (some (fun _ => 0))
        64).map (fun r => (r.1.map (fun buf => contents buf r.2), r.2)) =
      some (some ([96] ++ bytes "a [b] (c) [d]e(f) &lt;g&gt;"), 28) ∧
    (emissions ([96] ++ bytes "a [b] (c) [d]e(f) <g>") =
        ([96] ++ bytes "a [b] (c) [d]e(f) <g>").map Emit.esc ∧
      Outputs ([96] ++ bytes "a [b] (c) [d]e(f) <g>")
        (esc ([96] ++ bytes "a [b] (c) [d]e(f) <g>"))) :=
  ⟨by decide, by decide, by decide,
    malformed_delimiters_are_literal _ (by decide) (by decide) (by decide)⟩

theorem scan_emissions (md : List Nat) :
    ∃ es d, d.p = [] ∧ emissions md = es ++ closers d ∧
      ∀ size html, scan size md.length (init md html) =
        some (State.make (replay size es (html, 0)) d es) := by
  obtain ⟨es, d, -, hnil, hs⟩ := scan_normal md.length (Ctl.start md) (le_refl _)
  have h0 : ∀ html, init md html = State.make (html, 0) (Ctl.start md) [] := fun _ => rfl
  refine ⟨es, d, hnil, ?_, fun size html => ?_⟩
  · unfold emissions convert
    rw [h0, hs, Option.map_some', close_unclosed_eq]
    rfl
  · rw [h0, hs, List.nil_append]

/-- C14: the output is what the scan has emitted followed by the closing tags
of the flags that are set when the scan has consumed the whole input, in the
order `</pre>`, `</s>`, `</b>`, `</i>`, with nothing for a flag that is
clear. -/
theorem output_ends_with_pending_closers (md : List Nat) (html : Buffer) (size : Nat) :
    ∃ st, scan size md.length (init md html) = some st ∧ st.p = [] ∧
      Outputs md (text_of st.log ++
        ((if st.in_code_block then bytes "</pre>" else []) ++
         (if st.in_strike then bytes "</s>" else []) ++
         (if st.in_bold then bytes "</b>" else []) ++
         (if st.in_italic then bytes "</i>" else []))) := by
  obtain ⟨es, d, hnil, he, hs⟩ := scan_emissions md
  refine ⟨_, hs size html, hnil, fitting_output md _ ?_⟩
  unfold converted
  rw [he, text_of_append]
  congr 1
  obtain ⟨p, b, i, s, cb⟩ := d
  cases b <;> cases i <;> cases s <;> cases cb <;> rfl

theorem output_ends_with_pending_closers_witness :
    (md_to_telegram_html (some (bytes "**bold")) (some (fun _ => 0)) 64).map
        (fun r => (r.1.map (fun buf => contents buf r.2), r.2)) =
      some (some (bytes "<b>bold</b>"), 11) ∧
    (md_to_telegram_html (some (bytes "~~**x*y")) (some (fun _ => 0)) 64).map
        (fun r => (r.1.map (fun buf => contents buf r.2), r.2)) =
      some (some (bytes "<s><b>x<i>y</s></b></i>"), 23) ∧
    (scan 64 (bytes "~~**x*y").length (init (bytes "~~**x*y") (fun _ => 0))).map
        (fun st => (text_of st.log, st.in_code_block, st.in_strike, st.in_bold, st.in_italic)) =
      some (bytes "<s><b>x<i>y", false, true, true, true) ∧
    ∃ st, scan 64 (bytes "~~**x*y").length (init (bytes "~~**x*y") (fun _ => 0)) = some st ∧
      st.p = [] ∧
      Outputs (bytes "~~**x*y") (text_of st.log ++
        ((if st.in_code_block then bytes "</pre>" else []) ++
         (if st.in_strike then bytes "</s>" else []) ++
         (if st.in_bold then bytes "</b>" else []) ++
         (if st.in_italic then bytes "</i>" else []))) :=
  ⟨by decide, by decide, by decide, output_ends_with_pending_closers _ _ 64⟩

/-! ## The returned value and the bytes written -/

/-- C15, as stated, fails at the input `"**bold**"` with a buffer of 8 bytes:
the emissions `"<b>"`, `"b"`, `"o"`, `"l"`, `"d"` are copied, 7 bytes, the
emission `"</b>"` does not fit, and the call returns 11. -/
theorem truncated_return_exceeds_written :
    (md_to_telegram_html (some (bytes "**bold**")) (some (fun _ => 88)) 8).map
        (fun r => (r.1.map (fun buf => contents buf 8), r.2)) =
      some (some (bytes "<b>bold" ++ [0]), 11) ∧
    written 8 (bytes "**bold**") = 7 ∧
    text_of (copied 8 (bytes "**bold**")) = bytes "<b>bold" := by
  decide

/-- C15, amended: for every input and every capacity that exceeds the logical
length, so that nothing is truncated, the returned value is the number of
bytes written to the buffer, the terminating NUL excluded. -/
theorem return_is_written_when_it_fits (md : List Nat) (html : Buffer) (size : Nat)
    (h : (converted md).length < size) :
    ∃ buf, md_to_telegram_html (some md) (some html) size = some (some buf, written size md) ∧
      contents buf (written size md) = text_of (copied size md) ∧
      buf (written size md) = 0 := by
  have hw : written size md = (converted md).length := by
    unfold written
    rw [copied_all md size h]
    rfl
  have hc : text_of (copied size md) = converted md := by
    rw [copied_all md size h]
    rfl
  obtain ⟨buf, h1, h2, h3⟩ := fitting_output md _ rfl html size h
  exact ⟨buf, by rw [hw]; exact h1, by rw [hw, hc]; exact h2, by rw [hw]; exact h3⟩

theorem return_is_written_when_it_fits_witness :
    (converted (bytes "**bold**")).length < 12 ∧ written 12 (bytes "**bold**") = 11 ∧
    ∃ buf, md_to_telegram_html (some (bytes "**bold**")) (some (fun _ => 88)) 12 =
        some (some buf, written 12 (bytes "**bold**")) ∧
      contents buf (written 12 (bytes "**bold**")) = text_of (copied 12 (bytes "**bold**")) ∧
      buf (written 12 (bytes "**bold**")) = 0 :=
  ⟨by decide, by decide, return_is_written_when_it_fits _ _ 12 (by decide)⟩

/-- C16, as stated, fails at the input `"ab"`: a call with a buffer of 1 byte
is truncated and returns 2; a second call with a buffer of 2 bytes copies
`"a"` only, because `"b"` would leave no room for the NUL, and returns 2
again. -/
theorem capacity_of_logical_length_truncates :
    (md_to_telegram_html (some (bytes "ab")) (some (fun _ => 88)) 1).map (fun r => r.2) =
      some 2 ∧
    (md_to_telegram_html (some (bytes "ab")) (some (fun _ => 88)) 2).map
        (fun r => (r.1.map (fun buf => (contents buf 2, c_string buf 2)), r.2)) =
      some (some ([97, 0], bytes "a"), 2) ∧
    converted (bytes "ab") = bytes "ab" ∧
    emissions (bytes "ab") = [Emit.esc 97, Emit.esc 98] ∧
    copied 2 (bytes "ab") = [Emit.esc 97] := by
  decide

/-- C16, amended: when a conversion into a buffer of at least one byte,
truncated or not, reports the logical length `L`, a call on the same input
with a buffer of `L + 1` bytes copies every emission: the buffer holds the
whole converted text followed by a NUL. -/
theorem capacity_of_logical_length_plus_one_fits (md : List Nat) (html1 html2 : Buffer)
    (size : Nat) (h1 : 1 ≤ size) :
    ∃ b1 b2,
      md_to_telegram_html (some md) (some html1) size = some (some b1, (converted md).length) ∧
      md_to_telegram_html (some md) (some html2) ((converted md).length + 1) =
        some (some b2, (converted md).length) ∧
      copied ((converted md).length + 1) md = emissions md ∧
      contents b2 (converted md).length = converted md ∧
      b2 (converted md).length = 0 := by
  obtain ⟨b2, h3, h4, h5⟩ :=
    fitting_output md _ rfl html2 ((converted md).length + 1) (Nat.lt_succ_self _)
  exact ⟨_, b2, md_to_telegram_html_eq md html1 size h1, h3,
    copied_all md _ (Nat.lt_succ_self _), h4, h5⟩

theorem capacity_of_logical_length_plus_one_fits_witness :
    (1 ≤ 1 ∧ 1 ≤ (converted (bytes "ab")).length) ∧
    (md_to_telegram_html (some (bytes "ab")) (some (fun _ => 88)) 1).map
        (fun r => (r.1.map (fun buf => contents buf 1), r.2)) =
      some (some [0], 2) ∧
    (md_to_telegram_html (some (bytes "ab")) (some (fun _ => 88)) 3).map
        (fun r => (r.1.map (fun buf => contents buf 3), r.2)) =
      some (some [97, 98, 0], 2) ∧
    ∃ b1 b2,
      md_to_telegram_html (some (bytes "ab")) (some (fun _ => 88)) 1 =
        some (some b1, (converted (bytes "ab")).length) ∧
      md_to_telegram_html (some (bytes "ab")) (some (fun _ => 88))
          ((converted (bytes "ab")).length + 1) =
        some (some b2, (converted (bytes "ab")).length) ∧
      copied ((converted (bytes "ab")).length + 1) (bytes "ab") = emissions (bytes "ab") ∧
      contents b2 (converted (bytes "ab")).length = converted (bytes "ab") ∧
      b2 (converted (bytes "ab")).length = 0 :=
  ⟨by decide, by decide, by decide,
    capacity_of_logical_length_plus_one_fits _ _ _ 1 (by decide)⟩

/-! ## Progress of the cursor and size of the output -/

theorem skip_line_is_drop (t : List Nat) : ∃ j, j ≤ t.length ∧ skip_line t = t.drop j := by
  induction t with
  | nil => exact ⟨0, le_refl _, rfl⟩
  | cons a t ih =>
    by_cases ha : a ≠ 10
    · obtain ⟨j, hj, he⟩ := ih
      exact ⟨j + 1, by simp; omega, by simp [skip_line, ha, he]⟩
    · exact ⟨0, by simp, by simp [skip_line, ha]⟩

theorem rule_drops {c d : Ctl} {es : List Emit} (h : Rule c es d) :
    ∃ k, 1 ≤ k ∧ k ≤ c.p.length ∧ d.p = c.p.drop k := by
  cases h with
  | fence_open t b i s =>
    obtain ⟨j, hj, he⟩ := skip_line_is_drop t
    by_cases hlt : j < t.length
    · exact ⟨j + 1 + 3, by omega, by simp; omega, by simp [he, Nat.add_comm]⟩
    · refine ⟨t.length + 3, by omega, by simp, ?_⟩
      have : j = t.length := by omega
      subst this
      simp [he]
  | fence_close t b i s =>
    by_cases hc : 0 < t.length ∧ t.getD 0 0 = 10
    · refine ⟨4, by omega, by simp; omega, ?_⟩
      show (if 0 < t.length ∧ t.getD 0 0 = 10 then t.drop 1 else t) = _
      rw [if_pos hc]
      rfl
    · refine ⟨3, by omega, by simp, ?_⟩
      show (if 0 < t.length ∧ t.getD 0 0 = 10 then t.drop 1 else t) = _
      rw [if_neg hc]
      rfl
  | verbatim a t b i s => exact ⟨1, le_refl _, by simp, rfl⟩
  | literal a t b i s => exact ⟨1, le_refl _, by simp, rfl⟩
  | italic t b i s => exact ⟨1, le_refl _, by simp, rfl⟩
  | strike t b i s => exact ⟨2, by omega, by simp, rfl⟩
  | bold_star t b i s => exact ⟨2, by omega, by simp, rfl⟩
  | bold_underscore t b i s => exact ⟨2, by omega, by simp, rfl⟩
  | inline_code t b i s q hq =>
    obtain ⟨-, h2, -, -⟩ := memchr_spec _ _ _ _ hq
    exact ⟨q + 1 + 1, by omega, by simp; omega, rfl⟩
  | link t b i s k j hk hparen hj =>
    obtain ⟨-, h2, -, -⟩ := memchr_spec _ _ _ _ hj
    simp only [List.length_drop] at h2
    exact ⟨k + 2 + j + 1 + 1, by omega, by simp; omega, rfl⟩

theorem step_drops (size : Nat) (st : State) (h : 0 < st.p.length) :
    ∃ k, 1 ≤ k ∧ k ≤ st.p.length ∧ (step size st).p = st.p.drop k := by
  obtain ⟨es, d, hr, he⟩ :=
    step_normal ⟨st.p, st.in_bold, st.in_italic, st.in_strike, st.in_code_block⟩ h
  have := he size (st.html, st.out) st.log
  have e : State.make (st.html, st.out)
      ⟨st.p, st.in_bold, st.in_italic, st.in_strike, st.in_code_block⟩ st.log = st := rfl
  rw [e] at this
  rw [this]
  exact rule_drops hr

/-- C17: every iteration of the scan loop, whichever rule it follows, leaves
as new cursor the old one advanced by `k` bytes with `k` at least 1 and at
most the number of bytes left, and the loop run on an input of `len` bytes
exits, with the input consumed, within `len` iterations. -/
theorem scan_advances_and_terminates (md : List Nat) (html : Buffer) (size : Nat) :
    (∀ st : State, 0 < st.p.length →
      ∃ k, 1 ≤ k ∧ k ≤ st.p.length ∧ (step size st).p = st.p.drop k) ∧
    ∃ st, scan size md.length (init md html) = some st ∧ st.p = [] := by
  refine ⟨fun st h => step_drops size st h, ?_⟩
  obtain ⟨es, d, hnil, -, hs⟩ := scan_emissions md
  exact ⟨_, hs size html, hnil⟩

theorem scan_advances_and_terminates_witness :
    (scan 16 (bytes "[a](b)**c").length (init (bytes "[a](b)**c") (fun _ => 0))).map
        (fun st => st.p) = some [] ∧
    ((step 16 (init (bytes "[a](b)**c") (fun _ => 0))).p = (bytes "[a](b)**c").drop 6 ∧
      (scan 16 1 (init (bytes "[a](b)**c") (fun _ => 0))).map (fun st => st.p) = none) ∧
    ((∀ st : State, 0 < st.p.length →
        ∃ k, 1 ≤ k ∧ k ≤ st.p.length ∧ (step 16 st).p = st.p.drop k) ∧
      ∃ st, scan 16 (bytes "[a](b)**c").length (init (bytes "[a](b)**c") (fun _ => 0)) =
        some st ∧ st.p = []) :=
  ⟨by decide, by decide, scan_advances_and_terminates _ _ 16⟩

theorem escape_length_le (c : Nat) : (escape c).length ≤ 5 := by
  unfold escape
  split_ifs <;> simp

theorem span_length_le (s : List Nat) : (text_of (s.map Emit.esc)).length ≤ 5 * s.length := by
  induction s with
  | nil => simp [text_of]
  | cons a s ih =>
    have := escape_length_le a
    simp only [List.map_cons, text_of_cons, List.length_append, List.length_cons, Emit.bytes]
    omega

theorem rule_bound {c d : Ctl} {es : List Emit} (h : Rule c es d) :
    (text_of es).length + closing_debt d + 7 * d.p.length ≤
      closing_debt c + 7 * c.p.length := by
  have hl := rule_length_lt h
  cases h with
  | fence_open t b i s =>
    simp only [List.length_cons] at hl
    have hd := skip_line_length t
    cases b <;> cases i <;> cases s <;>
      simp [closing_debt, closers, text_of, Emit.bytes, PRE_OPEN, PRE_CLOSE, S_CLOSE, B_CLOSE,
        I_CLOSE] <;> omega
  | fence_close t b i s =>
    generalize (if 0 < t.length ∧ t.getD 0 0 = 10 then t.drop 1 else t) = q at hl ⊢
    simp only [List.length_cons] at hl
    cases b <;> cases i <;> cases s <;>
      simp [closing_debt, closers, text_of, Emit.bytes, PRE_OPEN, PRE_CLOSE, S_CLOSE, B_CLOSE,
        I_CLOSE] <;> omega
  | verbatim a t b i s =>
    have he := escape_length_le a
    have htext : text_of [Emit.esc a] = escape a := by simp [text_of, Emit.bytes]
    have hdebt : closing_debt ⟨t, b, i, s, true⟩ = closing_debt ⟨a :: t, b, i, s, true⟩ := rfl
    show (text_of [Emit.esc a]).length + closing_debt ⟨t, b, i, s, true⟩ + 7 * t.length ≤
      closing_debt ⟨a :: t, b, i, s, true⟩ + 7 * (a :: t).length
    rw [hdebt, htext, List.length_cons]
    omega
  | literal a t b i s =>
    have he := escape_length_le a
    have htext : text_of [Emit.esc a] = escape a := by simp [text_of, Emit.bytes]
    have hdebt : closing_debt ⟨t, b, i, s, false⟩ = closing_debt ⟨a :: t, b, i, s, false⟩ := rfl
    show (text_of [Emit.esc a]).length + closing_debt ⟨t, b, i, s, false⟩ + 7 * t.length ≤
      closing_debt ⟨a :: t, b, i, s, false⟩ + 7 * (a :: t).length
    rw [hdebt, htext, List.length_cons]
    omega
  | italic t b i s =>
    cases b <;> cases i <;> cases s <;>
      simp [closing_debt, closers, text_of, Emit.bytes, I_OPEN, PRE_CLOSE, S_CLOSE, B_CLOSE,
        I_CLOSE] <;> omega
  | strike t b i s =>
    cases b <;> cases i <;> cases s <;>
      simp [closing_debt, closers, text_of, Emit.bytes, S_OPEN, PRE_CLOSE, S_CLOSE, B_CLOSE,
        I_CLOSE] <;> omega
  | bold_star t b i s =>
    cases b <;> cases i <;> cases s <;>
      simp [closing_debt, closers, text_of, Emit.bytes, B_OPEN, PRE_CLOSE, S_CLOSE, B_CLOSE,
        I_CLOSE] <;> omega
  | bold_underscore t b i s =>
    cases b <;> cases i <;> cases s <;>
      simp [closing_debt, closers, text_of, Emit.bytes, B_OPEN, PRE_CLOSE, S_CLOSE, B_CLOSE,
        I_CLOSE] <;> omega
  | inline_code t b i s q hq =>
    obtain ⟨-, h2, -, -⟩ := memchr_spec _ _ _ _ hq
    have hs := span_length_le (t.take q)
    have ht : (t.take q).length ≤ q := by simp
    have hdebt : closing_debt ⟨t.drop (q + 1), b, i, s, false⟩ =
        closing_debt ⟨96 :: t, b, i, s, false⟩ := rfl
    have htext : (text_of ([Emit.str CODE_OPEN] ++ (t.take q).map Emit.esc ++
        [Emit.str CODE_CLOSE])).length = 6 + (text_of ((t.take q).map Emit.esc)).length + 7 := by
      simp only [text_of_append, text_of_str, List.length_append]
      rfl
    show (text_of _).length + closing_debt ⟨t.drop (q + 1), b, i, s, false⟩ +
      7 * (t.drop (q + 1)).length ≤ closing_debt ⟨96 :: t, b, i, s, false⟩ + 7 * (96 :: t).length
    rw [hdebt, htext, List.length_drop, List.length_cons]
    omega
  | link t b i s k j hk hparen hj =>
    obtain ⟨-, h2, -, -⟩ := memchr_spec _ _ _ _ hj
    simp only [List.length_drop] at h2
    have hs := span_length_le (t.take k)
    have ht : (t.take k).length ≤ k := by simp
    have hdebt : closing_debt ⟨t.drop (k + 2 + j + 1), b, i, s, false⟩ =
        closing_debt ⟨91 :: t, b, i, s, false⟩ := rfl
    have hraw : (Emit.raw (t.drop (k + 2)) j).bytes.length = j := by simp [Emit.bytes]
    have htext : (text_of ([Emit.str A_OPEN, Emit.raw (t.drop (k + 2)) j, Emit.str A_OPEN_END] ++
        (t.take k).map Emit.esc ++ [Emit.str A_CLOSE])).length =
        9 + j + 2 + (text_of ((t.take k).map Emit.esc)).length + 4 := by
      have e : [Emit.str A_OPEN, Emit.raw (t.drop (k + 2)) j, Emit.str A_OPEN_END] =
          [Emit.str A_OPEN] ++ [Emit.raw (t.drop (k + 2)) j] ++ [Emit.str A_OPEN_END] := rfl
      have e2 : text_of [Emit.raw (t.drop (k + 2)) j] = (Emit.raw (t.drop (k + 2)) j).bytes := by
        simp [text_of]
      rw [e]
      simp only [text_of_append, text_of_str, List.length_append, e2, hraw]
      rfl
    show (text_of _).length + closing_debt ⟨t.drop (k + 2 + j + 1), b, i, s, false⟩ +
      7 * (t.drop (k + 2 + j + 1)).length ≤
      closing_debt ⟨91 :: t, b, i, s, false⟩ + 7 * (91 :: t).length
    rw [hdebt, htext, List.length_drop, List.length_cons]
    omega

theorem run_bound {c d : Ctl} {es : List Emit} (h : Run c es d) :
    (text_of es).length + closing_debt d + 7 * d.p.length ≤
      closing_debt c + 7 * c.p.length := by
  induction h with
  | done c => simp [text_of]
  | next hr _ ih =>
    have := rule_bound hr
    rw [text_of_append, List.length_append]
    omega

theorem converted_length_le (md : List Nat) : (converted md).length ≤ 7 * md.length := by
  obtain ⟨es, d, hrun, hnil, he⟩ := emissions_run md
  have hb := run_bound hrun
  have h0 : closing_debt (Ctl.start md) = 0 := rfl
  have hp : (Ctl.start md).p.length = md.length := rfl
  unfold converted
  rw [he, text_of_append, List.length_append]
  rw [hnil, h0, hp] at hb
  simp only [closing_debt, List.length_nil] at hb
  omega

/-- C19: the logical length is at most 7 times the length of the input, so a
buffer of `7 * len + 1` bytes receives the whole converted text, and the bound
is reached by the input `"*"`, whose output is `"<i></i>"`. -/
theorem logical_length_at_most_seven_times (md : List Nat) (html : Buffer) :
    (converted md).length ≤ 7 * md.length ∧
    (∃ buf, md_to_telegram_html (some md) (some html) (7 * md.length + 1) =
        some (some buf, (converted md).length) ∧
      contents buf (converted md).length = converted md ∧
      buf (converted md).length = 0) ∧
    Outputs (bytes "*") (bytes "<i></i>") ∧
    (bytes "<i></i>").length = 7 * (bytes "*").length := by
  have hle := converted_length_le md
  exact ⟨hle, fitting_output md _ rfl html _ (by omega),
    fitting_output _ _ (by decide), by decide⟩

theorem logical_length_at_most_seven_times_witness :
    (md_to_telegram_html (some (bytes "*")) (some (fun _ => 0)) 8).map
        (fun r => (r.1.map (fun buf => contents buf r.2), r.2)) =
      some (some (bytes "<i></i>"), 7) ∧
    ((converted (bytes "*")).length ≤ 7 * (bytes "*").length ∧
      (∃ buf, md_to_telegram_html (some (bytes "*")) (some (fun _ => 0))
          (7 * (bytes "*").length + 1) = some (some buf, (converted (bytes "*")).length) ∧
        contents buf (converted (bytes "*")).length = converted (bytes "*") ∧
        buf (converted (bytes "*")).length = 0) ∧
      Outputs (bytes "*") (bytes "<i></i>") ∧
      (bytes "<i></i>").length = 7 * (bytes "*").length) :=
  ⟨by decide, logical_length_at_most_seven_times _ _⟩

end MdToHtml
